import Mathlib

/-!
# Verification of the agent response interpretation pipeline

A shallow embedding of the two components specified for this repository:

* `ReActOutputParser.parse` (src/agent_core.py, lines 15-41): classifies one
  model utterance as a terminal `Finish` or a structured `Action`.
* `_try_extract_json_from_text` (src/main.py, lines 93-130) together with the
  string-output fallback of `run_query` (src/main.py, lines 150-156): the
  best-effort structured-payload recoverer.

Python values returned by `json.loads` / `ast.literal_eval` are modelled by
`PyVal`.  Machine-level caveats of the embedding (documented per definition):
numbers are restricted to integers (float/complex literals are outside the
modelled fragment), string escapes cover the forms the serializer emits plus
the common short escapes, and Python's unicode-aware whitespace sets are
modelled by their ASCII subsets.
-/

/-- The value domain shared by `json.loads` and `ast.literal_eval`:
`None`/`null`, booleans, integers, strings, lists (JSON arrays), tuples,
sets, and dicts (JSON objects).  Dicts and sets are represented in insertion
order with duplicates already collapsed (as Python's `dict`/`set` do). -/
inductive PyVal where
  | null : PyVal
  | bool (b : Bool) : PyVal
  | int (n : Int) : PyVal
  | str (s : String) : PyVal
  | list (xs : List PyVal) : PyVal
  | tuple (xs : List PyVal) : PyVal
  | set (xs : List PyVal) : PyVal
  | dict (kvs : List (PyVal × PyVal)) : PyVal
deriving Repr

mutual

/-- Structural equality on `PyVal` (Python `==` on the modelled fragment;
`set` values are compared in representation order). -/
def PyVal.beq : PyVal → PyVal → Bool
  | .null, .null => true
  | .bool a, .bool b => a == b
  | .int a, .int b => a == b
  | .str a, .str b => a == b
  | .list a, .list b => PyVal.beqList a b
  | .tuple a, .tuple b => PyVal.beqList a b
  | .set a, .set b => PyVal.beqList a b
  | .dict a, .dict b => PyVal.beqPairs a b
  | _, _ => false

/-- Elementwise `PyVal.beq` on lists. -/
def PyVal.beqList : List PyVal → List PyVal → Bool
  | [], [] => true
  | a :: as, b :: bs => PyVal.beq a b && PyVal.beqList as bs
  | _, _ => false

/-- Pairwise `PyVal.beq` on key/value lists. -/
def PyVal.beqPairs : List (PyVal × PyVal) → List (PyVal × PyVal) → Bool
  | [], [] => true
  | (k1, v1) :: as, (k2, v2) :: bs =>
      PyVal.beq k1 k2 && PyVal.beq v1 v2 && PyVal.beqPairs as bs
  | _, _ => false

end

instance : BEq PyVal := ⟨PyVal.beq⟩

/-- Strong induction for the nested inductive `PyVal`. -/
theorem PyVal.inductionOn (P : PyVal → Prop)
    (hnull : P .null) (hbool : ∀ b, P (.bool b))
    (hint : ∀ n, P (.int n)) (hstr : ∀ s, P (.str s))
    (hlist : ∀ xs, (∀ x ∈ xs, P x) → P (.list xs))
    (htuple : ∀ xs, (∀ x ∈ xs, P x) → P (.tuple xs))
    (hset : ∀ xs, (∀ x ∈ xs, P x) → P (.set xs))
    (hdict : ∀ kvs, (∀ p ∈ kvs, P p.1 ∧ P p.2) → P (.dict kvs)) :
    ∀ v, P v := by
  have key : ∀ n v, sizeOf v ≤ n → P v := by
    intro n
    induction n with
    | zero =>
      intro v hv
      exfalso; cases v <;> simp_arith at hv
    | succ n ih =>
      intro v hv
      cases v with
      | null => exact hnull
      | bool b => exact hbool b
      | int m => exact hint m
      | str s => exact hstr s
      | list xs =>
        refine hlist xs (fun x hx => ih x ?_)
        have h1 := List.sizeOf_lt_of_mem hx
        simp_arith at hv; omega
      | tuple xs =>
        refine htuple xs (fun x hx => ih x ?_)
        have h1 := List.sizeOf_lt_of_mem hx
        simp_arith at hv; omega
      | set xs =>
        refine hset xs (fun x hx => ih x ?_)
        have h1 := List.sizeOf_lt_of_mem hx
        simp_arith at hv; omega
      | dict kvs =>
        refine hdict kvs (fun p hp => ?_)
        have h1 := List.sizeOf_lt_of_mem hp
        obtain ⟨a, b⟩ := p
        simp_arith at hv h1
        constructor
        · exact ih a (by omega)
        · exact ih b (by omega)
  exact fun v => key (sizeOf v) v (Nat.le_refl _)

theorem PyVal.beqList_refl {xs : List PyVal} (h : ∀ x ∈ xs, PyVal.beq x x = true) :
    PyVal.beqList xs xs = true := by
  induction xs with
  | nil => rfl
  | cons a as ih =>
    simp only [PyVal.beqList, Bool.and_eq_true]
    exact ⟨h a (by simp), ih (fun x hx => h x (by simp [hx]))⟩

theorem PyVal.beqPairs_refl {kvs : List (PyVal × PyVal)}
    (h : ∀ p ∈ kvs, PyVal.beq p.1 p.1 = true ∧ PyVal.beq p.2 p.2 = true) :
    PyVal.beqPairs kvs kvs = true := by
  induction kvs with
  | nil => rfl
  | cons p ps ih =>
    obtain ⟨a, b⟩ := p
    simp only [PyVal.beqPairs, Bool.and_eq_true]
    refine ⟨⟨(h (a, b) (by simp)).1, (h (a, b) (by simp)).2⟩,
      ih (fun q hq => h q (by simp [hq]))⟩

theorem PyVal.beq_refl : ∀ v : PyVal, PyVal.beq v v = true := by
  intro v
  induction v using PyVal.inductionOn with
  | hnull => rfl
  | hbool b => simp [PyVal.beq]
  | hint n => simp [PyVal.beq]
  | hstr s => simp [PyVal.beq]
  | hlist xs h => simpa [PyVal.beq] using PyVal.beqList_refl h
  | htuple xs h => simpa [PyVal.beq] using PyVal.beqList_refl h
  | hset xs h => simpa [PyVal.beq] using PyVal.beqList_refl h
  | hdict kvs h => simpa [PyVal.beq] using PyVal.beqPairs_refl h

theorem PyVal.beqList_eq {xs ys : List PyVal}
    (h : ∀ x ∈ xs, ∀ b, PyVal.beq x b = true → x = b)
    (hb : PyVal.beqList xs ys = true) : xs = ys := by
  induction xs generalizing ys with
  | nil => cases ys with
    | nil => rfl
    | cons b bs => simp [PyVal.beqList] at hb
  | cons a as ih =>
    cases ys with
    | nil => simp [PyVal.beqList] at hb
    | cons b bs =>
      simp only [PyVal.beqList, Bool.and_eq_true] at hb
      have h1 := h a (by simp) b hb.1
      have h2 := ih (fun x hx => h x (by simp [hx])) hb.2
      rw [h1, h2]

theorem PyVal.beqPairs_eq {xs ys : List (PyVal × PyVal)}
    (h : ∀ p ∈ xs, (∀ b, PyVal.beq p.1 b = true → p.1 = b) ∧
      (∀ b, PyVal.beq p.2 b = true → p.2 = b))
    (hb : PyVal.beqPairs xs ys = true) : xs = ys := by
  induction xs generalizing ys with
  | nil => cases ys with
    | nil => rfl
    | cons b bs => simp [PyVal.beqPairs] at hb
  | cons a as ih =>
    obtain ⟨a1, a2⟩ := a
    cases ys with
    | nil => simp [PyVal.beqPairs] at hb
    | cons b bs =>
      obtain ⟨b1, b2⟩ := b
      simp only [PyVal.beqPairs, Bool.and_eq_true] at hb
      have h1 := (h (a1, a2) (by simp)).1 b1 hb.1.1
      have h2 := (h (a1, a2) (by simp)).2 b2 hb.1.2
      have h3 := ih (fun p hp => h p (by simp [hp])) hb.2
      simp only at h1 h2
      rw [h1, h2, h3]

theorem PyVal.eq_of_beq : ∀ a b : PyVal, PyVal.beq a b = true → a = b := by
  intro a
  induction a using PyVal.inductionOn with
  | hnull => intro b hb; cases b <;> simp [PyVal.beq] at hb ⊢
  | hbool x => intro b hb; cases b <;> simp [PyVal.beq] at hb ⊢; exact hb
  | hint x => intro b hb; cases b <;> simp [PyVal.beq] at hb ⊢; exact hb
  | hstr x => intro b hb; cases b <;> simp [PyVal.beq] at hb ⊢; exact hb
  | hlist xs h =>
    intro b hb; cases b <;> simp [PyVal.beq] at hb ⊢
    exact PyVal.beqList_eq h hb
  | htuple xs h =>
    intro b hb; cases b <;> simp [PyVal.beq] at hb ⊢
    exact PyVal.beqList_eq h hb
  | hset xs h =>
    intro b hb; cases b <;> simp [PyVal.beq] at hb ⊢
    exact PyVal.beqList_eq h hb
  | hdict kvs h =>
    intro b hb; cases b <;> simp [PyVal.beq] at hb ⊢
    exact PyVal.beqPairs_eq h hb

instance : DecidableEq PyVal := fun a b =>
  decidable_of_iff (PyVal.beq a b = true)
    ⟨PyVal.eq_of_beq a b, fun h => h ▸ PyVal.beq_refl a⟩

/-! ## Character and string helpers (Python semantics, ASCII fragment) -/

def lbrace : Char := Char.ofNat 123
def rbrace : Char := Char.ofNat 125
def btick : Char := Char.ofNat 96
def squote : Char := Char.ofNat 39

/-- Python `str.strip()` / regex `\s` whitespace, ASCII fragment:
space, tab, newline, carriage return, vertical tab, form feed. -/
def pyIsSpace (c : Char) : Bool :=
  c = ' ' || c = '\t' || c = '\n' || c = '\r' || c = '\x0b' || c = '\x0c'

/-- JSON whitespace as skipped by `json.loads`: space, tab, newline, CR. -/
def jsonIsWs (c : Char) : Bool :=
  c = ' ' || c = '\t' || c = '\n' || c = '\r'

/-- Strip characters satisfying `p` from both ends (Python `str.strip`). -/
def stripChars (p : Char → Bool) (l : List Char) : List Char :=
  ((l.dropWhile p).reverse.dropWhile p).reverse

/-- Python `str.strip()` (whitespace on both ends). -/
def pyStrip (l : List Char) : List Char := stripChars pyIsSpace l

/-- Python truthiness (`if x:`) on the modelled value domain. -/
def pyTruthy : PyVal → Bool
  | .null => false
  | .bool b => b
  | .int n => n != 0
  | .str s => s != ""
  | .list xs => !xs.isEmpty
  | .tuple xs => !xs.isEmpty
  | .set xs => !xs.isEmpty
  | .dict kvs => !kvs.isEmpty

/-- Last binding for a key in an association list (later bindings win,
matching Python dict update semantics). -/
def lookupLast : List (PyVal × PyVal) → PyVal → Option PyVal
  | [], _ => Option.none
  | (k', v) :: rest, k =>
    match lookupLast rest k with
    | some w => some w
    | Option.none => if k' == k then some v else Option.none

/-- Python `d.get(k)` for a string key: the stored value, or `None` when the
key is missing (so an explicit `null` value and a missing key coincide,
exactly as for Python's `dict.get`). -/
def pyGetStr (kvs : List (PyVal × PyVal)) (k : String) : PyVal :=
  (lookupLast kvs (.str k)).getD .null

/-- Key membership in a dict representation. -/
def hasKey (kvs : List (PyVal × PyVal)) (k : PyVal) : Bool :=
  kvs.any (fun p => p.1 == k)

/-- One Python dict insertion `d[k] = v`: replace in place if the key is
present, else append. -/
def dictIns (acc : List (PyVal × PyVal)) (p : PyVal × PyVal) :
    List (PyVal × PyVal) :=
  if acc.any (fun q => q.1 == p.1) then
    acc.map (fun q => if q.1 == p.1 then (q.1, p.2) else q)
  else acc ++ [p]

/-- Build a Python dict from parsed key/value pairs in order (duplicate keys
collapse, later value wins, first position kept). -/
def dictOfPairs (ps : List (PyVal × PyVal)) : List (PyVal × PyVal) :=
  ps.foldl dictIns []

/-- One Python set insertion: skip if present, else append. -/
def setIns (acc : List PyVal) (x : PyVal) : List PyVal :=
  if acc.any (fun q => q == x) then acc else acc ++ [x]

/-- Build a Python set (insertion order representation) from elements. -/
def setOfElems (xs : List PyVal) : List PyVal := xs.foldl setIns []

def PyVal.isStr : PyVal → Bool
  | .str _ => true
  | _ => false

/-- `isinstance(candidate, (dict, list))` from src/main.py line 107. -/
def isDictOrList : PyVal → Bool
  | .dict _ => true
  | .list _ => true
  | _ => false

def PyVal.isList : PyVal → Bool
  | .list _ => true
  | _ => false

/-- A list, dict or set value (the shapes producible from a bracketed or
braced candidate span). -/
def isListDictSet : PyVal → Bool
  | .list _ => true
  | .dict _ => true
  | .set _ => true
  | _ => false

mutual

/-- Python hashability of a literal value: lists, dicts and sets are
unhashable; a tuple is hashable iff all its elements are; scalars are
hashable. -/
def isHashable : PyVal → Bool
  | .null => true
  | .bool _ => true
  | .int _ => true
  | .str _ => true
  | .tuple xs => isHashableList xs
  | .list _ => false
  | .set _ => false
  | .dict _ => false

def isHashableList : List PyVal → Bool
  | [] => true
  | x :: t => isHashable x && isHashableList t

end

mutual

/-- `ast.literal_eval` evaluation finishes without `TypeError`: every dict
key and every set element in the parsed tree is hashable (the `dict(...)`
and `set(...)` constructors hash them, raising
`TypeError: unhashable type` otherwise).  A hashable value cannot contain
a list, dict or set, so no deeper check is needed below a hashable key or
element. -/
def litValid : PyVal → Bool
  | .null => true
  | .bool _ => true
  | .int _ => true
  | .str _ => true
  | .list xs => litValidList xs
  | .tuple xs => litValidList xs
  | .set xs => isHashableList xs
  | .dict kvs => litValidPairs kvs

def litValidList : List PyVal → Bool
  | [] => true
  | x :: t => litValid x && litValidList t

def litValidPairs : List (PyVal × PyVal) → Bool
  | [] => true
  | (k, v) :: t => isHashable k && litValid v && litValidPairs t

end

/-- The uncaught exceptions of the modelled fragment: the
`AttributeError` escaping `ReActOutputParser.parse` when the fenced JSON
is not an object, and the `TypeError` raised by `ast.literal_eval` on an
unhashable dict key or set element, which escapes the second strategy of
`_try_extract_json_from_text` (its except tuple lists only `ValueError`
and `SyntaxError`). -/
inductive PyExc where
  | attributeError : PyExc
  | typeError : PyExc
deriving DecidableEq, Repr

/-! ## `json.loads` model (src/agent_core.py line 26, src/main.py lines 100/123)

Recursive-descent parser for strict JSON, faithful to Python's `json.loads`
on the modelled fragment.  Restrictions of the fragment (inputs outside it
make the model parser fail where Python would succeed): numbers must be
integers without fraction/exponent part, `NaN`/`Infinity` are not accepted,
and lone-surrogate `\uXXXX` escapes are rejected (Lean characters are
unicode scalar values). -/

def hexVal (c : Char) : Option Nat :=
  if c.isDigit then some (c.toNat - 48)
  else if 'a' ≤ c && c ≤ 'f' then some (c.toNat - 87)
  else if 'A' ≤ c && c ≤ 'F' then some (c.toNat - 55)
  else Option.none

def hex4 (a b c d : Char) : Option Nat := do
  let va ← hexVal a
  let vb ← hexVal b
  let vc ← hexVal c
  let vd ← hexVal d
  some (((va * 16 + vb) * 16 + vc) * 16 + vd)

/-- Parse the body of a JSON string after the opening quote, returning the
decoded characters and the input after the closing quote (fuel-indexed; the
callers supply fuel exceeding the input length, which always suffices). -/
def parseJStringBody : Nat → List Char → Option (List Char × List Char)
  | 0, _ => Option.none
  | f + 1, l =>
    match l with
    | [] => Option.none
    | c :: rest =>
      if c = '"' then some ([], rest)
      else if c = '\\' then
        match rest with
        | [] => Option.none
        | e :: rest2 =>
          if e = '"' then (parseJStringBody f rest2).map (fun p => ('"' :: p.1, p.2))
          else if e = '\\' then (parseJStringBody f rest2).map (fun p => ('\\' :: p.1, p.2))
          else if e = '/' then (parseJStringBody f rest2).map (fun p => ('/' :: p.1, p.2))
          else if e = 'b' then (parseJStringBody f rest2).map (fun p => ('\x08' :: p.1, p.2))
          else if e = 'f' then (parseJStringBody f rest2).map (fun p => ('\x0c' :: p.1, p.2))
          else if e = 'n' then (parseJStringBody f rest2).map (fun p => ('\n' :: p.1, p.2))
          else if e = 'r' then (parseJStringBody f rest2).map (fun p => ('\r' :: p.1, p.2))
          else if e = 't' then (parseJStringBody f rest2).map (fun p => ('\t' :: p.1, p.2))
          else if e = 'u' then
            match rest2 with
            | a :: b :: c2 :: d :: rest3 =>
              match hex4 a b c2 d with
              | some n =>
                if n < 0xd800 || (0xe000 ≤ n && n ≤ 0x10ffff) then
                  (parseJStringBody f rest3).map (fun p => (Char.ofNat n :: p.1, p.2))
                else if 0xdc00 ≤ n then Option.none
                else
                  match rest3 with
                  | '\\' :: 'u' :: a2 :: b2 :: c3 :: d2 :: rest4 =>
                    match hex4 a2 b2 c3 d2 with
                    | some m =>
                      if 0xdc00 ≤ m && m ≤ 0xdfff then
                        (parseJStringBody f rest4).map (fun p =>
                          (Char.ofNat (0x10000 + (n - 0xd800) * 0x400 + (m - 0xdc00)) :: p.1, p.2))
                      else Option.none
                    | Option.none => Option.none
                  | _ => Option.none
              | Option.none => Option.none
            | _ => Option.none
          else Option.none
      else if c.toNat < 0x20 then Option.none
      else (parseJStringBody f rest).map (fun p => (c :: p.1, p.2))

def digitsVal (ds : List Char) : Nat :=
  ds.foldl (fun a c => a * 10 + (c.toNat - 48)) 0

/-- Parse a JSON unsigned integer part: `0` stops immediately after the
zero (no leading zeros), otherwise a maximal digit run. -/
def parseJNat : List Char → Option (Nat × List Char)
  | [] => Option.none
  | c :: rest =>
    if c = '0' then some (0, rest)
    else if c.isDigit then
      some (digitsVal (c :: rest.takeWhile Char.isDigit), rest.dropWhile Char.isDigit)
    else Option.none

/-- Reject a following fraction/exponent part: those parse as floats in
Python, which are outside the modelled fragment. -/
def checkNoFrac (v : Int) (r : List Char) : Option (Int × List Char) :=
  match r with
  | [] => some (v, [])
  | c :: _ => if c = '.' || c = 'e' || c = 'E' then Option.none else some (v, r)

/-- Parse a JSON integer (optionally negative). -/
def parseJInt : List Char → Option (Int × List Char)
  | [] => Option.none
  | c :: rest =>
    if c = '-' then (parseJNat rest).bind (fun p => checkNoFrac (-(p.1 : Int)) p.2)
    else (parseJNat (c :: rest)).bind (fun p => checkNoFrac (p.1 : Int) p.2)

/-- Drop JSON whitespace. -/
def skipWs (l : List Char) : List Char := l.dropWhile jsonIsWs

mutual

/-- Parse one JSON value (fuel-indexed; the top level supplies fuel
proportional to the input length, which the fuel-adequacy lemmas show is
sufficient). -/
def parseJValue : Nat → List Char → Option (PyVal × List Char)
  | 0, _ => Option.none
  | f + 1, l =>
    match skipWs l with
    | [] => Option.none
    | c :: rest =>
      if c = '"' then
        (parseJStringBody (rest.length + 1) rest).map
          (fun p => (.str (String.mk p.1), p.2))
      else if c = '[' then
        (parseJItems f (skipWs rest)).map (fun p => (.list p.1, p.2))
      else if c = lbrace then
        (parseJMembers f (skipWs rest)).map
          (fun p => (.dict (dictOfPairs p.1), p.2))
      else if c = 't' then
        if ['r', 'u', 'e'].isPrefixOf rest then some (.bool true, rest.drop 3)
        else Option.none
      else if c = 'f' then
        if ['a', 'l', 's', 'e'].isPrefixOf rest then some (.bool false, rest.drop 4)
        else Option.none
      else if c = 'n' then
        if ['u', 'l', 'l'].isPrefixOf rest then some (.null, rest.drop 3)
        else Option.none
      else (parseJInt (c :: rest)).map (fun p => (.int p.1, p.2))

/-- Parse JSON array items positioned after `[` (whitespace skipped),
consuming the closing `]`.  As in CPython's `json.loads`, a comma must be
followed by a further value: a trailing comma (`[1,]`) is a parse error,
since after the comma the scanner expects a value and `]` is not one. -/
def parseJItems : Nat → List Char → Option (List PyVal × List Char)
  | 0, _ => Option.none
  | f + 1, l =>
    match l with
    | [] => Option.none
    | c :: r =>
      if c = ']' then some ([], r)
      else
        match parseJValue f (c :: r) with
        | Option.none => Option.none
        | some (v, r1) =>
          match skipWs r1 with
          | [] => Option.none
          | c2 :: r2 =>
            if c2 = ',' then
              match skipWs r2 with
              | [] => Option.none
              | c3 :: r3 =>
                if c3 = ']' then Option.none
                else (parseJItems f (c3 :: r3)).map (fun p => (v :: p.1, p.2))
            else if c2 = ']' then some ([v], r2)
            else Option.none

/-- Parse JSON object members positioned after the opening brace
(whitespace skipped), consuming the closing brace; returns the raw pair
list in source order. -/
def parseJMembers : Nat → List Char → Option (List (PyVal × PyVal) × List Char)
  | 0, _ => Option.none
  | f + 1, l =>
    match l with
    | c :: rest =>
      if c = rbrace then some ([], rest)
      else if c = '"' then
        match parseJStringBody (rest.length + 1) rest with
        | Option.none => Option.none
        | some (k, r1) =>
          match skipWs r1 with
          | [] => Option.none
          | c1 :: r2 =>
            if c1 = ':' then
              match parseJValue f (skipWs r2) with
              | Option.none => Option.none
              | some (v, r3) =>
                match skipWs r3 with
                | [] => Option.none
                | c2 :: r4 =>
                  if c2 = ',' then
                    match skipWs r4 with
                    | [] => Option.none
                    | c3 :: r5 =>
                      if c3 = '"' then
                        (parseJMembers f (c3 :: r5)).map
                          (fun p => ((PyVal.str (String.mk k), v) :: p.1, p.2))
                      else Option.none
                  else if c2 = rbrace then some ([(PyVal.str (String.mk k), v)], r4)
                  else Option.none
            else Option.none
      else Option.none
    | [] => Option.none

end

/-- `json.loads`: parse a complete JSON document (leading/trailing
whitespace allowed, nothing else may follow). `Option.none` models a raised
`json.JSONDecodeError`. -/
def jsonLoads (l : List Char) : Option PyVal :=
  match parseJValue (2 * l.length + 2) l with
  | some (v, r) => if (skipWs r).isEmpty then some v else Option.none
  | Option.none => Option.none

/-! ## `ast.literal_eval` model (src/main.py lines 106/127)

Recursive-descent parser for Python literals on the modelled fragment:
`None`/`True`/`False`, integers (optional sign, no leading zeros), strings
in single or double quotes with the common escapes, lists, tuples
(parenthesized, with the one-element trailing-comma form), sets, and dicts,
all with optional trailing commas.  Outside the fragment (floats, complex
numbers, digit-group underscores, exotic escapes, top-level unparenthesized
tuples, spaces inside a unary minus) the model parser fails where Python
may succeed; whitespace between tokens is modelled uniformly by the ASCII
whitespace set. -/

def pySkipWs (l : List Char) : List Char := l.dropWhile pyIsSpace

/-- Parse the body of a Python string literal after its opening quote
`q`. -/
def parseLitStringBody (q : Char) : List Char → Option (List Char × List Char)
  | [] => Option.none
  | c :: rest =>
    if c = q then some ([], rest)
    else if c = '\\' then
      match rest with
      | [] => Option.none
      | e :: rest2 =>
        if e = '\\' then (parseLitStringBody q rest2).map (fun p => ('\\' :: p.1, p.2))
        else if e = squote then (parseLitStringBody q rest2).map (fun p => (squote :: p.1, p.2))
        else if e = '"' then (parseLitStringBody q rest2).map (fun p => ('"' :: p.1, p.2))
        else if e = 'n' then (parseLitStringBody q rest2).map (fun p => ('\n' :: p.1, p.2))
        else if e = 't' then (parseLitStringBody q rest2).map (fun p => ('\t' :: p.1, p.2))
        else if e = 'r' then (parseLitStringBody q rest2).map (fun p => ('\r' :: p.1, p.2))
        else Option.none
    else if c = '\n' then Option.none
    else (parseLitStringBody q rest).map (fun p => (c :: p.1, p.2))

/-- Reject literal continuations that would make the number a float or
complex (outside the modelled fragment). -/
def checkNoFracL (v : Int) (r : List Char) : Option (Int × List Char) :=
  match r with
  | [] => some (v, [])
  | c :: _ =>
    if c = '.' || c = 'e' || c = 'E' || c = 'j' || c = 'J' then Option.none
    else some (v, r)

/-- Parse a Python integer literal with optional unary sign. -/
def parseLitInt : List Char → Option (Int × List Char)
  | '+' :: rest => (parseJNat rest).bind (fun p => checkNoFracL (p.1 : Int) p.2)
  | '-' :: rest => (parseJNat rest).bind (fun p => checkNoFracL (-(p.1 : Int)) p.2)
  | l => (parseJNat l).bind (fun p => checkNoFracL (p.1 : Int) p.2)

mutual

/-- Parse one Python literal (fuel-indexed). -/
def parseLit : Nat → List Char → Option (PyVal × List Char)
  | 0, _ => Option.none
  | f + 1, l =>
    match pySkipWs l with
    | [] => Option.none
    | c :: rest =>
      if c = '"' || c = squote then
        (parseLitStringBody c rest).map (fun p => (.str (String.mk p.1), p.2))
      else if c = '[' then
        (parseLitItems f ']' (pySkipWs rest)).map (fun p => (.list p.1, p.2))
      else if c = '(' then parseLitParen f (pySkipWs rest)
      else if c = lbrace then parseLitBrace f (pySkipWs rest)
      else if c = 'T' then
        if ['r', 'u', 'e'].isPrefixOf rest then some (.bool true, rest.drop 3)
        else Option.none
      else if c = 'F' then
        if ['a', 'l', 's', 'e'].isPrefixOf rest then some (.bool false, rest.drop 4)
        else Option.none
      else if c = 'N' then
        if ['o', 'n', 'e'].isPrefixOf rest then some (.null, rest.drop 3)
        else Option.none
      else (parseLitInt (c :: rest)).map (fun p => (.int p.1, p.2))

/-- Parse comma-separated literal items up to and including the closing
character `close`; trailing commas are allowed. -/
def parseLitItems : Nat → Char → List Char → Option (List PyVal × List Char)
  | 0, _, _ => Option.none
  | f + 1, close, l =>
    match l with
    | [] => Option.none
    | c :: rest =>
      if c = close then some ([], rest)
      else
        match parseLit f (c :: rest) with
        | Option.none => Option.none
        | some (v, r) =>
          match pySkipWs r with
          | ',' :: r2 => (parseLitItems f close (pySkipWs r2)).map (fun p => (v :: p.1, p.2))
          | c2 :: r2 => if c2 = close then some ([v], r2) else Option.none
          | [] => Option.none

/-- Parse after `(`: the empty tuple, a parenthesized literal, or a tuple of
two or more items (or one item with a trailing comma). -/
def parseLitParen : Nat → List Char → Option (PyVal × List Char)
  | 0, _ => Option.none
  | f + 1, l =>
    match l with
    | [] => Option.none
    | c :: rest =>
      if c = ')' then some (.tuple [], rest)
      else
        match parseLit f (c :: rest) with
        | Option.none => Option.none
        | some (v, r) =>
          match pySkipWs r with
          | ')' :: r2 => some (v, r2)
          | ',' :: r2 =>
            (parseLitItems f ')' (pySkipWs r2)).map (fun p => (.tuple (v :: p.1), p.2))
          | _ => Option.none

/-- Parse key/value members after the first `key: value,` of a dict,
consuming the closing brace; trailing commas are allowed. -/
def parseLitMembers : Nat → List Char → Option (List (PyVal × PyVal) × List Char)
  | 0, _ => Option.none
  | f + 1, l =>
    match l with
    | [] => Option.none
    | c :: rest =>
      if c = rbrace then some ([], rest)
      else
        match parseLit f (c :: rest) with
        | Option.none => Option.none
        | some (k, r) =>
          match pySkipWs r with
          | ':' :: r2 =>
            match parseLit f (pySkipWs r2) with
            | Option.none => Option.none
            | some (v, r3) =>
              match pySkipWs r3 with
              | ',' :: r4 =>
                (parseLitMembers f (pySkipWs r4)).map (fun p => ((k, v) :: p.1, p.2))
              | c2 :: r4 => if c2 = rbrace then some ([(k, v)], r4) else Option.none
              | [] => Option.none
          | _ => Option.none

/-- Parse after an opening brace: the empty dict, a dict, or a set literal
(disambiguated by the token after the first element). -/
def parseLitBrace : Nat → List Char → Option (PyVal × List Char)
  | 0, _ => Option.none
  | f + 1, l =>
    match l with
    | [] => Option.none
    | c :: rest =>
      if c = rbrace then some (.dict [], rest)
      else
        match parseLit f (c :: rest) with
        | Option.none => Option.none
        | some (first, r) =>
          match pySkipWs r with
          | ':' :: r2 =>
            match parseLit f (pySkipWs r2) with
            | Option.none => Option.none
            | some (v, r3) =>
              match pySkipWs r3 with
              | ',' :: r4 =>
                (parseLitMembers f (pySkipWs r4)).map
                  (fun p => (.dict (dictOfPairs ((first, v) :: p.1)), p.2))
              | c2 :: r4 =>
                if c2 = rbrace then some (.dict (dictOfPairs [(first, v)]), r4)
                else Option.none
              | [] => Option.none
          | ',' :: r2 =>
            (parseLitItems f rbrace (pySkipWs r2)).map
              (fun p => (.set (setOfElems (first :: p.1)), p.2))
          | c2 :: r2 =>
            if c2 = rbrace then some (.set (setOfElems [first]), r2) else Option.none
          | [] => Option.none

end

/-- `ast.literal_eval`: parse a complete Python literal.  `Option.none`
models a raised `ValueError`/`SyntaxError`. -/
def literalEval (l : List Char) : Option PyVal :=
  match parseLit (2 * l.length + 2) l with
  | some (v, r) => if (pySkipWs r).isEmpty then some v else Option.none
  | Option.none => Option.none

/-! ## Regex models for `_try_extract_json_from_text` (src/main.py 113-119)

The two candidate patterns are `(\[\s*[\s\S]*?\])` and `(\{\s*[\s\S]*?\})`,
used with `re.search`, i.e. the leftmost position at which the pattern can
match, with the lazy `[\s\S]*?` taking the shortest completion.  Since the
closing bracket is not a whitespace character, a match starts at the
leftmost opening bracket that is followed (anywhere later) by a closing
bracket and ends at the first closing bracket after it. -/

def takeUntilChar (c : Char) : List Char → Option (List Char)
  | [] => Option.none
  | x :: r => if x = c then some [] else (takeUntilChar c r).map (x :: ·)

/-- `re.search` for a non-greedy `o...c` span: the leftmost `o` that has a
later `c`, spanning up to the first such `c` (inclusive). -/
def searchSpan (o c : Char) : List Char → Option (List Char)
  | [] => Option.none
  | x :: r =>
    if x = o then (takeUntilChar c r).map (fun mid => o :: mid ++ [c])
    else searchSpan o c r

/-- `candidate = m.group(1).strip().strip("`")` (src/main.py line 120). -/
def stripCandidate (cs : List Char) : List Char :=
  stripChars (fun c => c = btick) (pyStrip cs)

/-- Recovery attempt for one regex candidate (src/main.py lines 120-129):
strict JSON parse first, then the relaxed literal parse; every error is
swallowed by the bare `except Exception` handlers — including the
`TypeError` raised by `ast.literal_eval` on an unhashable dict key or set
element, so such a candidate simply fails. -/
def candRecover : Option (List Char) → Option PyVal
  | Option.none => Option.none
  | some cs =>
    let cand := stripCandidate cs
    match jsonLoads cand with
    | some v => some v
    | Option.none =>
      match literalEval cand with
      | some v => if litValid v then some v else Option.none
      | Option.none => Option.none

/-- Strategy 1 (src/main.py lines 99-102): strict JSON parse of the trimmed
string; any value type is returned. -/
def stage1 (ls : List Char) : Option PyVal := jsonLoads ls

/-- Strategy 2 (src/main.py lines 105-110): relaxed literal parse of the
trimmed string, accepted only if the result is a dict or a list (a scalar
parse is discarded, `.ok Option.none`).  A parse failure is the
`ValueError`/`SyntaxError` caught by the except clause; the `TypeError`
raised by `ast.literal_eval` when the parsed literal holds an unhashable
dict key or set element is NOT in the except tuple and escapes
(`.error .typeError`). -/
def stage2 (ls : List Char) : Except PyExc (Option PyVal) :=
  match literalEval ls with
  | some c =>
    if litValid c then
      (if isDictOrList c then .ok (some c) else .ok Option.none)
    else .error .typeError
  | Option.none => .ok Option.none

/-- Strategy 3 (src/main.py lines 112-129): regex extraction from the
original untrimmed string, array-shaped span first, then object-shaped
span. -/
def stage3 (l : List Char) : Option PyVal :=
  match candRecover (searchSpan '[' ']' l) with
  | some v => some v
  | Option.none => candRecover (searchSpan lbrace rbrace l)

/-- `_try_extract_json_from_text` (src/main.py lines 93-130).  A non-string
argument is rejected up front; otherwise the three strategies run in order
and the first success wins.  `.ok Option.none` models Python's `None`
return; `.error .typeError` models the uncaught `TypeError` escaping the
second strategy on an unhashable literal. -/
def tryExtractJsonFromText (s : PyVal) : Except PyExc (Option PyVal) :=
  match s with
  | .str str =>
    let ls := pyStrip str.data
    match stage1 ls with
    | some v => .ok (some v)
    | Option.none =>
      match stage2 ls with
      | .error e => .error e
      | .ok (some v) => .ok (some v)
      | .ok Option.none => .ok (stage3 str.data)
  | _ => .ok Option.none

/-- The string-output branch of `run_query` (src/main.py lines 150-156): a
recovered payload is returned as the response body, otherwise the raw
string is wrapped as `{"output": <string>}`.  The call to
`_try_extract_json_from_text` at line 151 stands outside every
`try`/`except` of `run_query`, so an exception it raises propagates
(`.error`). -/
def runQueryStringResponse (outputRaw : String) : Except PyExc PyVal :=
  match tryExtractJsonFromText (.str outputRaw) with
  | .ok (some parsed) => .ok parsed
  | .ok Option.none => .ok (.dict [(.str "output", .str outputRaw)])
  | .error e => .error e

/-! ## JSON serialization (modelled from the spec)

Modelled from the spec: the round-trip property in §8 speaks of
`serialize(V)`, "the strict JSON serialization of V"; the repository itself
contains no serializer, so one is defined here following the spec's words:
canonical strict JSON with compact separators, escaping only the quote, the
backslash and ASCII control characters.  Sets are not JSON-serializable
(Python's `json.dumps` raises `TypeError`), so for totality `serJ` emits an
unparseable placeholder for them; the JSON well-formedness hypothesis
excludes that case. -/

def digitCh (n : Nat) : Char := Char.ofNat (48 + n)

def hexCh (n : Nat) : Char :=
  if n < 10 then Char.ofNat (48 + n) else Char.ofNat (87 + n)

/-- Fuel-indexed digit extraction (least significant first); the fuel
`n + 1` always suffices. -/
def natDigitsRevGo : Nat → Nat → List Char
  | 0, _ => []
  | f + 1, n =>
    if n < 10 then [digitCh n] else digitCh (n % 10) :: natDigitsRevGo f (n / 10)

def natDigitsRev (n : Nat) : List Char := natDigitsRevGo (n + 1) n

def natDigits (n : Nat) : List Char := (natDigitsRev n).reverse

def serInt (n : Int) : List Char :=
  if n < 0 then '-' :: natDigits n.natAbs else natDigits n.natAbs

def escJChar (c : Char) : List Char :=
  if c = '"' then ['\\', '"']
  else if c = '\\' then ['\\', '\\']
  else if c = '\n' then ['\\', 'n']
  else if c = '\r' then ['\\', 'r']
  else if c = '\t' then ['\\', 't']
  else if c = '\x08' then ['\\', 'b']
  else if c = '\x0c' then ['\\', 'f']
  else if c.toNat < 0x20 then
    ['\\', 'u', '0', '0', hexCh (c.toNat / 16), hexCh (c.toNat % 16)]
  else [c]

def escJString : List Char → List Char
  | [] => []
  | c :: t => escJChar c ++ escJString t

mutual

def serJ : PyVal → List Char
  | .null => 'n' :: ['u', 'l', 'l']
  | .bool true => 't' :: ['r', 'u', 'e']
  | .bool false => 'f' :: ['a', 'l', 's', 'e']
  | .int n => serInt n
  | .str s => '"' :: (escJString s.data ++ ['"'])
  | .list xs => '[' :: (serItems xs ++ [']'])
  | .tuple xs => '[' :: (serItems xs ++ [']'])
  | .set _ => ['!']
  | .dict kvs => lbrace :: (serMembers kvs ++ [rbrace])

def serItems : List PyVal → List Char
  | [] => []
  | [x] => serJ x
  | x :: t => serJ x ++ ',' :: serItems t

def serMembers : List (PyVal × PyVal) → List Char
  | [] => []
  | [(k, v)] => serJ k ++ ':' :: serJ v
  | (k, v) :: t => serJ k ++ ':' :: serJ v ++ ',' :: serMembers t

end

mutual

/-- A JSON value: no tuples or sets, dict keys are strings and duplicate
free (a Python dict obtained from JSON satisfies this). -/
def isJsonB : PyVal → Bool
  | .null => true
  | .bool _ => true
  | .int _ => true
  | .str _ => true
  | .list xs => isJsonListB xs
  | .tuple _ => false
  | .set _ => false
  | .dict kvs => decide ((kvs.map Prod.fst).Nodup) && isJsonPairsB kvs

def isJsonListB : List PyVal → Bool
  | [] => true
  | x :: t => isJsonB x && isJsonListB t

def isJsonPairsB : List (PyVal × PyVal) → Bool
  | [] => true
  | (k, v) :: t => k.isStr && isJsonB v && isJsonPairsB t

end

mutual

/-- Structural fuel requirement of a value for `parseJValue`. -/
def fuelOf : PyVal → Nat
  | .null => 1
  | .bool _ => 1
  | .int _ => 1
  | .str _ => 1
  | .list xs => 1 + fuelOfList xs
  | .tuple xs => 1 + fuelOfList xs
  | .set xs => 1 + fuelOfList xs
  | .dict kvs => 1 + fuelOfPairs kvs

def fuelOfList : List PyVal → Nat
  | [] => 1
  | x :: t => 1 + fuelOf x + fuelOfList t

def fuelOfPairs : List (PyVal × PyVal) → Nat
  | [] => 1
  | (_, v) :: t => 1 + fuelOf v + fuelOfPairs t

end

/-! ## `ReActOutputParser.parse` model (src/agent_core.py lines 15-41) -/

/-- Python `sep in text` (substring containment). -/
def containsSub (sep : List Char) : List Char → Bool
  | [] => sep.isEmpty
  | c :: r => sep.isPrefixOf (c :: r) || containsSub sep r

/-- Python `text.split(sep)` for a non-empty separator: split at
non-overlapping occurrences scanned left to right. -/
def pySplit (sep : List Char) : List Char → List (List Char)
  | [] => [[]]
  | c :: r =>
    if sep.isPrefixOf (c :: r) && !sep.isEmpty then
      [] :: pySplit sep (r.drop (sep.length - 1))
    else
      match pySplit sep r with
      | [] => [[c]]
      | h :: t => (c :: h) :: t
  termination_by l => l.length
  decreasing_by
    all_goals simp only [List.length_drop, List.length_cons]
    all_goals omega

/-- `AgentFinish(return_values={"output": output}, log=log)` or
`AgentAction(tool=tool, tool_input=input, log=log)`. -/
inductive AgentDecision where
  | finish (output : String) (log : String) : AgentDecision
  | action (tool : PyVal) (input : PyVal) (log : String) : AgentDecision
deriving DecidableEq, Repr

instance {e a : Type} [DecidableEq e] [DecidableEq a] :
    DecidableEq (Except e a) := fun x y =>
  match x, y with
  | .ok a, .ok b => decidable_of_iff (a = b) (by simp)
  | .error a, .error b => decidable_of_iff (a = b) (by simp)
  | .ok _, .error _ => isFalse (by simp)
  | .error _, .ok _ => isFalse (by simp)

def fenceTag : List Char := "```json".data

def fence3 : List Char := "```".data

/-- The lazy `(.*?)` up to the first closing triple backtick; fails when no
closing fence exists. -/
def takeUntilFence : List Char → Option (List Char)
  | [] => Option.none
  | c :: r =>
    if fence3.isPrefixOf (c :: r) then some []
    else (takeUntilFence r).map (c :: ·)

/-- Try to match `Action\s*:\s*```json(.*?)```/DOTALL` at the start of `l`,
returning group 1.  `Action`, then a forced maximal whitespace run, a
colon, another forced whitespace run, the tagged fence, then the lazy body
up to the first closing fence. -/
def matchActionAt (l : List Char) : Option (List Char) :=
  if "Action".data.isPrefixOf l then
    match (l.drop 6).dropWhile pyIsSpace with
    | ':' :: r2 =>
      let r3 := r2.dropWhile pyIsSpace
      if fenceTag.isPrefixOf r3 then takeUntilFence (r3.drop 7)
      else Option.none
    | _ => Option.none
  else Option.none

/-- `re.search(r"Action\s*:\s*```json(.*?)```", text, re.DOTALL)`: try each
start position left to right. -/
def findActionBlock : List Char → Option (List Char)
  | [] => Option.none
  | c :: r =>
    match matchActionAt (c :: r) with
    | some g => some g
    | Option.none => findActionBlock r

/-- `ReActOutputParser.parse` (src/agent_core.py lines 15-41).

* Terminal check (lines 18-20): `"Final Answer:" in text`, then
  `text.split("Final Answer:")[-1].strip()`.
* Action check (lines 22-38): the fenced-block regex, `json.loads` on the
  stripped group (a parse failure is the `json.JSONDecodeError` caught at
  line 33), `dict.get` for both fields, and the
  `ValueError("Action JSON is missing ...")` raised at line 32 and caught
  at line 36 — both handlers return the degraded `Finish`.  When the fenced
  JSON parses to a non-dict value, `.get` does not exist on it: Python
  raises `AttributeError`, which no handler catches; this is the `.error`
  branch.
* Default (lines 40-41): degraded `Finish` with the trimmed text. -/
def ReActOutputParser.parse (text : String) : Except PyExc AgentDecision :=
  let l := text.data
  if containsSub "Final Answer:".data l then
    .ok (.finish (String.mk (pyStrip ((pySplit "Final Answer:".data l).getLastD []))) text)
  else
    match findActionBlock l with
    | Option.none => .ok (.finish (String.mk (pyStrip l)) text)
    | some grp =>
      match jsonLoads (pyStrip grp) with
      | Option.none => .ok (.finish (String.mk (pyStrip l)) text)
      | some (.dict d) =>
        let action := pyGetStr d "action"
        let actionInput := pyGetStr d "action_input"
        if pyTruthy action && !(actionInput == .null) then
          .ok (.action action actionInput text)
        else
          .ok (.finish (String.mk (pyStrip l)) text)
      | some _ => .error .attributeError

/-! ## Basic lemmas -/

instance : LawfulBEq PyVal where
  eq_of_beq h := PyVal.eq_of_beq _ _ h
  rfl := PyVal.beq_refl _

theorem lookupLast_hasKey {kvs : List (PyVal × PyVal)} {k : PyVal}
    (h : lookupLast kvs k ≠ Option.none) : hasKey kvs k = true := by
  induction kvs with
  | nil => simp [lookupLast] at h
  | cons p rest ih =>
    obtain ⟨k', v⟩ := p
    simp only [lookupLast] at h
    cases hr : lookupLast rest k with
    | some w' =>
      have := ih (by rw [hr]; simp)
      simp [hasKey] at this ⊢
      exact Or.inr this
    | none =>
      rw [hr] at h
      by_cases hk : (k' == k) = true
      · simp [hasKey, List.any_cons, hk]
      · simp [hk] at h

theorem pyGetStr_ne_null_hasKey {d : List (PyVal × PyVal)} {k : String}
    (h : pyGetStr d k ≠ .null) : hasKey d (.str k) = true := by
  unfold pyGetStr at h
  apply lookupLast_hasKey
  intro hl
  rw [hl] at h
  simp at h

theorem pyTruthy_hasKey {d : List (PyVal × PyVal)} {k : String}
    (h : pyTruthy (pyGetStr d k) = true) : hasKey d (.str k) = true := by
  apply pyGetStr_ne_null_hasKey
  intro hn
  rw [hn] at h
  simp [pyTruthy] at h

/-! ## Claim theorems -/

/-- C10: `_try_extract_json_from_text` returns `None` for every non-string
argument, before any parsing strategy is attempted (the `isinstance` guard
of src/main.py lines 94-95). -/
theorem C10_nonstring_not_recoverable (v : PyVal) (h : v.isStr = false) :
    tryExtractJsonFromText v = .ok Option.none := by
  cases v <;> simp_all [PyVal.isStr, tryExtractJsonFromText]

/-- Witness for C10 at the integer argument `3`. -/
theorem C10_nonstring_not_recoverable_witness :
    tryExtractJsonFromText (.int 3) = .ok Option.none :=
  C10_nonstring_not_recoverable (.int 3) (by decide)

/-- C9: when the text contains neither the `"Final Answer:"` marker nor a
match of the fenced-action pattern, the parser returns `Finish` carrying
the whitespace-trimmed original text (src/agent_core.py lines 40-41). -/
theorem C9_default_finish (t : String)
    (h1 : containsSub "Final Answer:".data t.data = false)
    (h2 : findActionBlock t.data = Option.none) :
    ReActOutputParser.parse t =
      .ok (.finish (String.mk (pyStrip t.data)) t) := by
  unfold ReActOutputParser.parse
  simp [h1, h2]

/-- Witness for C9 at `"  hello there  "`. -/
theorem C9_default_finish_witness :
    ReActOutputParser.parse "  hello there  " =
      .ok (.finish "hello there" "  hello there  ") :=
  C9_default_finish "  hello there  " (by decide) (by decide)

/-- C2 (code evaluation at the failing input): on a fenced action block
whose JSON parses to the non-object value `42`, the regex matches and
`json.loads` succeeds, but `parse` then performs `.get` on a non-dict and
the resulting `AttributeError` escapes to the caller — the parser is not
total, contradicting the spec's totality claim. -/
theorem C2_nondict_fenced_json_raises :
    ReActOutputParser.parse "Action: ```json\n42\n```" = .error .attributeError ∧
    findActionBlock "Action: ```json\n42\n```".data = some "\n42\n".data ∧
    jsonLoads (pyStrip "\n42\n".data) = some (.int 42) := by
  refine ⟨?_, ?_, ?_⟩ <;> decide

/-- C3: whenever the text has no terminal marker and the fenced action
block parses as a JSON object with a truthy `action` and an `action_input`
that is not `None`, the parser returns the corresponding `Action`; in
particular on the spec's example block it returns
`Action{tool:"PythonREPL", input:"print(1)"}`. -/
theorem C3_wellformed_action_block :
    (∀ (t : String) (grp : List Char) (d : List (PyVal × PyVal)),
      containsSub "Final Answer:".data t.data = false →
      findActionBlock t.data = some grp →
      jsonLoads (pyStrip grp) = some (.dict d) →
      pyTruthy (pyGetStr d "action") = true →
      pyGetStr d "action_input" ≠ .null →
      ReActOutputParser.parse t =
        .ok (.action (pyGetStr d "action") (pyGetStr d "action_input") t)) ∧
    ReActOutputParser.parse
        "Action:\n```json\n\x7b\"action\": \"PythonREPL\", \"action_input\": \"print(1)\"\x7d\n```\n" =
      .ok (.action (.str "PythonREPL") (.str "print(1)")
        "Action:\n```json\n\x7b\"action\": \"PythonREPL\", \"action_input\": \"print(1)\"\x7d\n```\n") := by
  constructor
  · intro t grp d h1 h2 h3 h4 h5
    unfold ReActOutputParser.parse
    simp [h1, h2, h3, h4, h5]
  · decide

/-- Witness for C3: the general clause applied to the spec's example
block. -/
theorem C3_wellformed_action_block_witness :
    ReActOutputParser.parse
        "Action:\n```json\n\x7b\"action\": \"PythonREPL\", \"action_input\": \"print(1)\"\x7d\n```\n" =
      .ok (.action (pyGetStr [(.str "action", .str "PythonREPL"),
          (.str "action_input", .str "print(1)")] "action")
        (pyGetStr [(.str "action", .str "PythonREPL"),
          (.str "action_input", .str "print(1)")] "action_input")
        "Action:\n```json\n\x7b\"action\": \"PythonREPL\", \"action_input\": \"print(1)\"\x7d\n```\n") :=
  C3_wellformed_action_block.1
    "Action:\n```json\n\x7b\"action\": \"PythonREPL\", \"action_input\": \"print(1)\"\x7d\n```\n"
    "\n\x7b\"action\": \"PythonREPL\", \"action_input\": \"print(1)\"\x7d\n".data
    [(.str "action", .str "PythonREPL"), (.str "action_input", .str "print(1)")]
    (by decide) (by decide) (by decide) (by decide) (by decide)

/-- C4: an `Action` decision is produced only when both `"action"` and
`"action_input"` keys are present in the fenced JSON object; an
empty-string `action_input` is accepted; a missing field (`dict.get`
returning `None`, which in Python also covers an explicit JSON `null`
value) degrades to `Finish` with the entire original text trimmed; and a
fenced block that fails to parse as JSON likewise degrades to `Finish`
with the entire original text trimmed, without raising. -/
theorem C4_action_needs_both_fields :
    (∀ (t : String) (a i : PyVal) (lg : String),
      ReActOutputParser.parse t = .ok (.action a i lg) →
      ∃ grp d, findActionBlock t.data = some grp ∧
        jsonLoads (pyStrip grp) = some (.dict d) ∧
        hasKey d (.str "action") = true ∧
        hasKey d (.str "action_input") = true) ∧
    (∀ (t : String) (grp : List Char) (d : List (PyVal × PyVal)),
      containsSub "Final Answer:".data t.data = false →
      findActionBlock t.data = some grp →
      jsonLoads (pyStrip grp) = some (.dict d) →
      pyTruthy (pyGetStr d "action") = true →
      pyGetStr d "action_input" = .str "" →
      ReActOutputParser.parse t = .ok (.action (pyGetStr d "action") (.str "") t)) ∧
    (∀ (t : String) (grp : List Char) (d : List (PyVal × PyVal)),
      containsSub "Final Answer:".data t.data = false →
      findActionBlock t.data = some grp →
      jsonLoads (pyStrip grp) = some (.dict d) →
      (pyGetStr d "action" = .null ∨ pyGetStr d "action_input" = .null) →
      ReActOutputParser.parse t = .ok (.finish (String.mk (pyStrip t.data)) t)) ∧
    (∀ (t : String) (grp : List Char),
      containsSub "Final Answer:".data t.data = false →
      findActionBlock t.data = some grp →
      jsonLoads (pyStrip grp) = Option.none →
      ReActOutputParser.parse t = .ok (.finish (String.mk (pyStrip t.data)) t)) := by
  refine ⟨?_, ?_, ?_, ?_⟩
  · intro t a i lg h
    unfold ReActOutputParser.parse at h
    by_cases h1 : containsSub "Final Answer:".data t.data = true
    · simp [h1] at h
    · simp only [Bool.not_eq_true] at h1
      simp only [h1, Bool.false_eq_true, if_false] at h
      split at h
      · simp at h
      · rename_i grp heq2
        split at h
        · simp at h
        · rename_i d heq3
          split at h
          · rename_i h4
            simp only [Except.ok.injEq, AgentDecision.action.injEq] at h
            simp only [Bool.and_eq_true, Bool.not_eq_true'] at h4
            refine ⟨grp, d, heq2, heq3, pyTruthy_hasKey h4.1, ?_⟩
            apply pyGetStr_ne_null_hasKey
            intro hn
            rw [hn] at h4
            simp at h4
          · simp at h
        · simp at h
  · intro t grp d h1 h2 h3 h4 h5
    unfold ReActOutputParser.parse
    simp [h1, h2, h3, h4, h5]
  · intro t grp d h1 h2 h3 h4
    unfold ReActOutputParser.parse
    cases h4 with
    | inl h4 => simp [h1, h2, h3, h4, pyTruthy]
    | inr h4 => simp [h1, h2, h3, h4]
  · intro t grp h1 h2 h3
    unfold ReActOutputParser.parse
    simp [h1, h2, h3]

/-- Witness for C4: the empty-string-acceptance clause at a concrete
block. -/
theorem C4_action_needs_both_fields_witness :
    ReActOutputParser.parse "Action: ```json\n\x7b\"action\": \"T\", \"action_input\": \"\"\x7d\n```" =
      .ok (.action (pyGetStr [(.str "action", .str "T"), (.str "action_input", .str "")] "action")
        (.str "") "Action: ```json\n\x7b\"action\": \"T\", \"action_input\": \"\"\x7d\n```") :=
  C4_action_needs_both_fields.2.1
    "Action: ```json\n\x7b\"action\": \"T\", \"action_input\": \"\"\x7d\n```"
    "\n\x7b\"action\": \"T\", \"action_input\": \"\"\x7d\n".data
    [(.str "action", .str "T"), (.str "action_input", .str "")]
    (by decide) (by decide) (by decide) (by decide) (by decide)

/-! ## Shape lemmas for the substring-extraction stage -/

theorem searchSpan_shape {o c : Char} {l sp : List Char}
    (h : searchSpan o c l = some sp) : ∃ mid, sp = o :: (mid ++ [c]) := by
  induction l with
  | nil => simp [searchSpan] at h
  | cons x r ih =>
    unfold searchSpan at h
    by_cases hx : x = o
    · rw [if_pos hx] at h
      rw [Option.map_eq_some'] at h
      obtain ⟨mid, _, hsp⟩ := h
      exact ⟨mid, hsp.symm⟩
    · rw [if_neg hx] at h
      exact ih h

theorem stripChars_eq_self {p : Char → Bool} {a b : Char} {mid : List Char}
    (ha : p a = false) (hb : p b = false) :
    stripChars p (a :: (mid ++ [b])) = a :: (mid ++ [b]) := by
  unfold stripChars
  rw [List.dropWhile_cons_of_neg (by simp [ha])]
  have h1 : (a :: (mid ++ [b])).reverse = b :: (mid.reverse ++ [a]) := by
    simp
  rw [h1, List.dropWhile_cons_of_neg (by simp [hb])]
  rw [← h1, List.reverse_reverse]

theorem stripCandidate_span {o c : Char} {mid : List Char}
    (h1 : pyIsSpace o = false) (h2 : pyIsSpace c = false)
    (h3 : (o == btick) = false) (h4 : (c == btick) = false) :
    stripCandidate (o :: (mid ++ [c])) = o :: (mid ++ [c]) := by
  unfold stripCandidate pyStrip
  rw [stripChars_eq_self h1 h2]
  exact stripChars_eq_self (by simpa using h3) (by simpa using h4)

theorem parseJValue_head_lbracket {f : Nat} {r rest : List Char} {v : PyVal}
    (h : parseJValue f ('[' :: r) = some (v, rest)) : ∃ xs, v = .list xs := by
  cases f with
  | zero => simp [parseJValue] at h
  | succ f =>
    have hws : skipWs ('[' :: r) = '[' :: r := by
      simp [skipWs, List.dropWhile_cons, show jsonIsWs '[' = false from by decide]
    unfold parseJValue at h
    split at h
    · simp at h
    · rename_i c rest2 heq
      rw [hws] at heq
      injection heq with hc hrest
      subst hc
      rw [if_neg (show ¬(('[' : Char) = '"') from by decide),
        if_pos (show (('[' : Char) = '[') from rfl)] at h
      rw [Option.map_eq_some'] at h
      obtain ⟨p, _, hpe⟩ := h
      exact ⟨p.1, by rw [← (Prod.mk.injEq _ _ _ _).mp hpe |>.1]⟩

theorem parseJValue_head_lbrace {f : Nat} {r rest : List Char} {v : PyVal}
    (h : parseJValue f (lbrace :: r) = some (v, rest)) : ∃ kvs, v = .dict kvs := by
  cases f with
  | zero => simp [parseJValue] at h
  | succ f =>
    have hws : skipWs (lbrace :: r) = lbrace :: r := by
      simp [skipWs, List.dropWhile_cons, show jsonIsWs lbrace = false from by decide]
    unfold parseJValue at h
    split at h
    · simp at h
    · rename_i c rest2 heq
      rw [hws] at heq
      injection heq with hc hrest
      subst hc
      rw [if_neg (show ¬(lbrace = '"') from by decide),
        if_neg (show ¬(lbrace = '[') from by decide),
        if_pos (show lbrace = lbrace from rfl)] at h
      rw [Option.map_eq_some'] at h
      obtain ⟨p, _, hpe⟩ := h
      exact ⟨dictOfPairs p.1, by rw [← (Prod.mk.injEq _ _ _ _).mp hpe |>.1]⟩

theorem jsonLoads_head_lbracket {r : List Char} {v : PyVal}
    (h : jsonLoads ('[' :: r) = some v) : ∃ xs, v = .list xs := by
  unfold jsonLoads at h
  split at h
  · rename_i w rr heq
    by_cases he : (skipWs rr).isEmpty = true
    · rw [if_pos he] at h
      injection h with h'
      obtain ⟨xs, hxs⟩ := parseJValue_head_lbracket heq
      exact ⟨xs, by rw [← h', hxs]⟩
    · rw [if_neg he] at h; simp at h
  · simp at h

theorem jsonLoads_head_lbrace {r : List Char} {v : PyVal}
    (h : jsonLoads (lbrace :: r) = some v) : ∃ kvs, v = .dict kvs := by
  unfold jsonLoads at h
  split at h
  · rename_i w rr heq
    by_cases he : (skipWs rr).isEmpty = true
    · rw [if_pos he] at h
      injection h with h'
      obtain ⟨kvs, hkvs⟩ := parseJValue_head_lbrace heq
      exact ⟨kvs, by rw [← h', hkvs]⟩
    · rw [if_neg he] at h; simp at h
  · simp at h

theorem parseLitBrace_shape : ∀ {f : Nat} {l rest : List Char} {v : PyVal},
    parseLitBrace f l = some (v, rest) →
    (∃ kvs, v = .dict kvs) ∨ (∃ xs, v = .set xs) := by
  intro f l rest v h
  cases f with
  | zero => simp [parseLitBrace] at h
  | succ f =>
    unfold parseLitBrace at h
    repeat' split at h
    all_goals simp_all [Option.map_eq_some']
    all_goals first
      | exact Or.inl ⟨_, h.1.symm⟩
      | exact Or.inr ⟨_, h.1.symm⟩
      | (obtain ⟨a, _, hv⟩ := h; exact Or.inl ⟨_, hv.symm⟩)
      | (obtain ⟨a, _, hv⟩ := h; exact Or.inr ⟨_, hv.symm⟩)

theorem parseLit_head_lbracket {f : Nat} {r rest : List Char} {v : PyVal}
    (h : parseLit f ('[' :: r) = some (v, rest)) : ∃ xs, v = .list xs := by
  cases f with
  | zero => simp [parseLit] at h
  | succ f =>
    have hws : pySkipWs ('[' :: r) = '[' :: r := by
      simp [pySkipWs, List.dropWhile_cons, show pyIsSpace '[' = false from by decide]
    unfold parseLit at h
    split at h
    · simp at h
    · rename_i c rest2 heq
      rw [hws] at heq
      injection heq with hc hrest
      subst hc
      split at h
      · rename_i hc; exact absurd hc (by decide)
      · split at h
        · rw [Option.map_eq_some'] at h
          obtain ⟨p, _, hpe⟩ := h
          exact ⟨p.1, by rw [← (Prod.mk.injEq _ _ _ _).mp hpe |>.1]⟩
        · rename_i hc; exact absurd rfl hc

theorem parseLit_head_lbrace {f : Nat} {r rest : List Char} {v : PyVal}
    (h : parseLit f (lbrace :: r) = some (v, rest)) :
    (∃ kvs, v = .dict kvs) ∨ (∃ xs, v = .set xs) := by
  cases f with
  | zero => simp [parseLit] at h
  | succ f =>
    have hws : pySkipWs (lbrace :: r) = lbrace :: r := by
      simp [pySkipWs, List.dropWhile_cons, show pyIsSpace lbrace = false from by decide]
    unfold parseLit at h
    split at h
    · simp at h
    · rename_i c rest2 heq
      rw [hws] at heq
      injection heq with hc hrest
      subst hc
      split at h
      · rename_i hc; exact absurd hc (by decide)
      · split at h
        · rename_i hc; exact absurd hc (by decide)
        · split at h
          · rename_i hc; exact absurd hc (by decide)
          · split at h
            · exact parseLitBrace_shape h
            · rename_i hc; exact absurd rfl hc

theorem literalEval_head_lbracket {r : List Char} {v : PyVal}
    (h : literalEval ('[' :: r) = some v) : ∃ xs, v = .list xs := by
  unfold literalEval at h
  split at h
  · rename_i w rr heq
    by_cases he : (pySkipWs rr).isEmpty = true
    · rw [if_pos he] at h
      injection h with h'
      obtain ⟨xs, hxs⟩ := parseLit_head_lbracket heq
      exact ⟨xs, by rw [← h', hxs]⟩
    · rw [if_neg he] at h; simp at h
  · simp at h

theorem literalEval_head_lbrace {r : List Char} {v : PyVal}
    (h : literalEval (lbrace :: r) = some v) :
    (∃ kvs, v = .dict kvs) ∨ (∃ xs, v = .set xs) := by
  unfold literalEval at h
  split at h
  · rename_i w rr heq
    by_cases he : (pySkipWs rr).isEmpty = true
    · rw [if_pos he] at h
      injection h with h'
      subst h'
      exact parseLit_head_lbrace heq
    · rw [if_neg he] at h; simp at h
  · simp at h

/-- A successful array-pattern candidate always recovers a list (the
candidate starts with `[`, stripping changes nothing, and both parsers
dispatch on the opening bracket). -/
theorem candRecover_array {l : List Char} {v : PyVal}
    (h : candRecover (searchSpan '[' ']' l) = some v) : ∃ xs, v = .list xs := by
  cases hs : searchSpan '[' ']' l with
  | none => rw [hs] at h; simp [candRecover] at h
  | some sp =>
    rw [hs] at h
    obtain ⟨mid, hmid⟩ := searchSpan_shape hs
    subst hmid
    simp only [candRecover] at h
    rw [stripCandidate_span (by decide) (by decide) (by decide) (by decide)] at h
    split at h
    · rename_i w hj
      injection h with h'
      obtain ⟨xs, hxs⟩ := jsonLoads_head_lbracket hj
      exact ⟨xs, by rw [← h', hxs]⟩
    · split at h
      · rename_i w hw
        split at h
        · injection h with h'
          obtain ⟨xs, hxs⟩ := literalEval_head_lbracket hw
          exact ⟨xs, by rw [← h', hxs]⟩
        · exact absurd h (by simp)
      · exact absurd h (by simp)

/-- A successful object-pattern candidate recovers a dict or a set (a
braced span is a dict or set literal for `ast.literal_eval`). -/
theorem candRecover_brace {l : List Char} {v : PyVal}
    (h : candRecover (searchSpan lbrace rbrace l) = some v) :
    (∃ kvs, v = .dict kvs) ∨ (∃ xs, v = .set xs) := by
  cases hs : searchSpan lbrace rbrace l with
  | none => rw [hs] at h; simp [candRecover] at h
  | some sp =>
    rw [hs] at h
    obtain ⟨mid, hmid⟩ := searchSpan_shape hs
    subst hmid
    simp only [candRecover] at h
    rw [stripCandidate_span (by decide) (by decide) (by decide) (by decide)] at h
    split at h
    · rename_i w hj
      injection h with h'
      obtain ⟨kvs, hkvs⟩ := jsonLoads_head_lbrace hj
      exact Or.inl ⟨kvs, by rw [← h', hkvs]⟩
    · split at h
      · rename_i w hw
        split at h
        · injection h with h'
          rcases literalEval_head_lbrace hw with ⟨kvs, hkvs⟩ | ⟨xs, hxs⟩
          · exact Or.inl ⟨kvs, by rw [← h', hkvs]⟩
          · exact Or.inr ⟨xs, by rw [← h', hxs]⟩
        · exact absurd h (by simp)
      · exact absurd h (by simp)

/-- Every value produced by the substring-extraction stage is a list, dict
or set. -/
theorem stage3_shape {l : List Char} {v : PyVal} (h : stage3 l = some v) :
    isListDictSet v = true := by
  unfold stage3 at h
  split at h
  · rename_i w harr
    injection h with h'
    obtain ⟨xs, hxs⟩ := candRecover_array harr
    rw [← h', hxs]; rfl
  · rcases candRecover_brace h with ⟨kvs, hv⟩ | ⟨xs, hv⟩ <;> rw [hv] <;> rfl

/-- C5 (amended): the strategies run in the fixed order, stopping at the
first success; a bare scalar from the strict JSON parse of the trimmed
input is accepted (step 1 has no type restriction); the relaxed-literal
stage, when it returns at all, only returns objects/arrays (scalars are
rejected there even when parseable, and a literal holding an unhashable
dict key or set element makes that stage raise an uncaught `TypeError`
instead of returning); and the regex-extraction stage only yields values
recovered from a bracketed or braced span, i.e. lists, dicts, or Python
sets — a `{...}` span may parse as a set literal, so this stage is not
limited to JSON objects and arrays. -/
theorem C5_strategy_order_and_shapes :
    (∀ (s : String) (v : PyVal),
      stage1 (pyStrip s.data) = some v →
      tryExtractJsonFromText (.str s) = .ok (some v)) ∧
    (∀ (s : String) (v : PyVal),
      stage1 (pyStrip s.data) = Option.none →
      stage2 (pyStrip s.data) = .ok (some v) →
      tryExtractJsonFromText (.str s) = .ok (some v)) ∧
    (∀ (l : List Char) (v : PyVal),
      stage2 l = .ok (some v) → isDictOrList v = true) ∧
    (∀ (l : List Char) (v : PyVal), stage3 l = some v → isListDictSet v = true) := by
  refine ⟨?_, ?_, ?_, ?_⟩
  · intro s v h
    simp [tryExtractJsonFromText, h]
  · intro s v h1 h2
    simp [tryExtractJsonFromText, h1, h2]
  · intro l v h
    unfold stage2 at h
    split at h
    · rename_i c hc
      split at h
      · by_cases hd : isDictOrList c = true
        · rw [if_pos hd] at h
          injection h with h'
          injection h' with h''
          rw [← h'']; exact hd
        · rw [if_neg hd] at h
          exact absurd h (by simp)
      · exact absurd h (by simp)
    · exact absurd h (by simp)
  · exact fun l v h => stage3_shape h

/-- Witness for C5: the bare scalar `42` is accepted by step 1;
`{1: 2}` (JSON-invalid, literal-valid) is accepted by step 2. -/
theorem C5_strategy_order_and_shapes_witness :
    tryExtractJsonFromText (.str "42") = .ok (some (.int 42)) ∧
    tryExtractJsonFromText (.str "\x7b1: 2\x7d")
      = .ok (some (.dict [(.int 1, .int 2)])) :=
  ⟨C5_strategy_order_and_shapes.1 "42" (.int 42) (by decide),
   C5_strategy_order_and_shapes.2.1 "\x7b1: 2\x7d" (.dict [(.int 1, .int 2)])
     (by decide) (by decide)⟩

/-- Counterexample to C5 as stated: on the input `{1, 2}` the recoverer
returns a Python **set** recovered by the regex-extraction stage (the
braced span parses as a set literal), which is neither a JSON object nor
an array. -/
theorem C5_counterexample_set_from_regex_stage :
    tryExtractJsonFromText (.str "\x7b1, 2\x7d") = .ok (some (.set [.int 1, .int 2])) ∧
    isDictOrList (.set [.int 1, .int 2]) = false ∧
    isJsonB (.set [.int 1, .int 2]) = false := by
  refine ⟨?_, ?_, ?_⟩ <;> decide

/-- C6 (amended): in the substring-extraction stage the array-shaped
pattern is scanned before the object-shaped pattern, so whenever the
array-shaped candidate recovers a value, that value is returned — even if
the string also contains a `{...}` span; this applies to inputs on which
the strict-parse and relaxed-literal stages have both failed. -/
theorem C6_array_candidate_priority :
    (∀ (l : List Char) (v : PyVal),
      candRecover (searchSpan '[' ']' l) = some v → stage3 l = some v) ∧
    (∀ (s : String) (v : PyVal),
      stage1 (pyStrip s.data) = Option.none →
      stage2 (pyStrip s.data) = .ok Option.none →
      candRecover (searchSpan '[' ']' s.data) = some v →
      tryExtractJsonFromText (.str s) = .ok (some v)) := by
  constructor
  · intro l v h
    unfold stage3
    rw [h]
  · intro s v h1 h2 h3
    simp [tryExtractJsonFromText, h1, h2, stage3, h3]

/-- Witness for C6: on `x [1] {"a": 2}` both spans are present, stages 1-2
fail, and the recoverer returns the array candidate's value `[1]`. -/
theorem C6_array_candidate_priority_witness :
    tryExtractJsonFromText (.str "x [1] \x7b\"a\": 2\x7d") = .ok (some (.list [.int 1])) ∧
    searchSpan lbrace rbrace "x [1] \x7b\"a\": 2\x7d".data = some "\x7b\"a\": 2\x7d".data :=
  ⟨C6_array_candidate_priority.2 "x [1] \x7b\"a\": 2\x7d" (.list [.int 1])
     (by decide) (by decide) (by decide),
   by decide⟩

/-- Counterexample to C6 as stated: `[oops] {"a": 1}` contains both a
`[...]` span and a `{...}` span, yet the recoverer returns the value of
the object-shaped match (the array candidate `[oops]` parses as neither
JSON nor a literal, so the loop falls through to the object pattern); the
result is not a list at all. -/
theorem C6_counterexample_object_match_returned :
    searchSpan '[' ']' "[oops] \x7b\"a\": 1\x7d".data = some "[oops]".data ∧
    searchSpan lbrace rbrace "[oops] \x7b\"a\": 1\x7d".data = some "\x7b\"a\": 1\x7d".data ∧
    tryExtractJsonFromText (.str "[oops] \x7b\"a\": 1\x7d") =
      .ok (some (.dict [(.str "a", .int 1)])) ∧
    PyVal.isList (.dict [(.str "a", .int 1)]) = false := by
  refine ⟨?_, ?_, ?_, ?_⟩ <;> decide

/-- C7 (refuted - code evaluation at the failing input): the recoverer
CAN raise.  On the string `{[]: 1}` the strict JSON parse fails, and the
relaxed-literal stage parses a dict literal whose key is a list: CPython's
`ast.literal_eval` raises `TypeError: unhashable type: list`, which the
stage's `except (ValueError, SyntaxError)` (src/main.py line 109) does
not catch, so the exception escapes `_try_extract_json_from_text` and the
`run_query` string branch - for this input there is no distinct `None`
outcome and no `{"output": ...}` wrapping.  On `"The result is 42"`
(no strategy succeeds) the distinct `None` outcome and the wrapping do
occur, but the universal never-raises claim is false. -/
theorem C7_recoverer_raises_typeerror :
    tryExtractJsonFromText (.str "\x7b[]: 1\x7d") = .error .typeError ∧
    runQueryStringResponse "\x7b[]: 1\x7d" = .error .typeError ∧
    stage1 (pyStrip "\x7b[]: 1\x7d".data) = Option.none ∧
    literalEval (pyStrip "\x7b[]: 1\x7d".data) =
      some (.dict [(.list [], .int 1)]) ∧
    litValid (.dict [(.list [], .int 1)]) = false ∧
    tryExtractJsonFromText (.str "The result is 42") = .ok Option.none ∧
    runQueryStringResponse "The result is 42" =
      .ok (.dict [(.str "output", .str "The result is 42")]) := by
  refine ⟨?_, ?_, ?_, ?_, ?_, ?_, ?_⟩ <;> decide

/-! ## Lemmas for the terminal-marker split (C1)

`text.split(sep)[-1]` equals the text after the last occurrence of `sep`
whenever `sep` has no nontrivial border (no proper prefix that is also a
suffix), which rules out overlapping occurrences; `"Final Answer:"` is
such a separator. -/

/-- `sep` has no nontrivial border: no proper nonempty prefix equals the
suffix of the same length. -/
def Borderless (sep : List Char) : Prop :=
  ∀ k, k < sep.length → 0 < k → sep.take k ≠ sep.drop (sep.length - k)

theorem marker_borderless : Borderless ("Final Answer:".data) := by
  unfold Borderless
  decide

theorem isPrefixOf_append_self (l t : List Char) : l.isPrefixOf (l ++ t) = true := by
  induction l with
  | nil => simp [List.isPrefixOf]
  | cons c r ih => simp [List.isPrefixOf, ih]

theorem containsSub_append (sep a b : List Char) :
    containsSub sep (a ++ (sep ++ b)) = true := by
  induction a with
  | nil =>
    cases sep with
    | nil => cases b <;> simp [containsSub, List.isPrefixOf]
    | cons s ss =>
      simp only [List.nil_append, List.cons_append, containsSub, List.append_eq]
      rw [show s :: (ss ++ b) = (s :: ss) ++ b from (List.cons_append s ss b).symm]
      rw [isPrefixOf_append_self]
      simp
  | cons c a' ih => simp [containsSub, ih]

theorem pySplit_not_contains (sep : List Char) :
    ∀ l, containsSub sep l = false → pySplit sep l = [l] := by
  intro l
  induction l with
  | nil => intro h; simp [pySplit]
  | cons c r ih =>
    intro h
    simp only [containsSub, Bool.or_eq_false_iff] at h
    simp [pySplit, h.1, ih h.2]

theorem pySplit_ne_nil (sep l : List Char) : pySplit sep l ≠ [] := by
  cases l with
  | nil => simp [pySplit]
  | cons c r =>
    by_cases hc : (sep.isPrefixOf (c :: r) && !sep.isEmpty) = true
    · simp [pySplit, hc]
    · cases hp : pySplit sep r <;> simp [pySplit, hc, hp]

theorem pySplit_cons_pos {sep : List Char} {c : Char} {r : List Char}
    (h : (sep.isPrefixOf (c :: r) && !sep.isEmpty) = true) :
    pySplit sep (c :: r) = [] :: pySplit sep (r.drop (sep.length - 1)) := by
  simp [pySplit, h]

theorem pySplit_cons_neg {sep : List Char} {c : Char} {r : List Char}
    {hd : List Char} {tl : List (List Char)}
    (hcond : (sep.isPrefixOf (c :: r) && !sep.isEmpty) = false)
    (hp : pySplit sep r = hd :: tl) :
    pySplit sep (c :: r) = (c :: hd) :: tl := by
  simp [pySplit, hcond, hp]

theorem pySplit_len2 {sep : List Char} (hne : sep ≠ []) :
    ∀ {l}, containsSub sep l = true → 2 ≤ (pySplit sep l).length := by
  intro l
  induction l with
  | nil =>
    intro h
    simp [containsSub, List.isEmpty_iff] at h
    exact absurd h hne
  | cons c r ih =>
    intro h
    have hE : sep.isEmpty = false := by
      cases sep
      · exact absurd rfl hne
      · rfl
    by_cases hp : sep.isPrefixOf (c :: r) = true
    · rw [pySplit_cons_pos (by simp [hp, hE])]
      have h1 := pySplit_ne_nil sep (r.drop (sep.length - 1))
      have h2 := List.length_pos.mpr h1
      simp only [List.length_cons]
      omega
    · rw [Bool.not_eq_true] at hp
      simp only [containsSub, hp, Bool.false_or] at h
      have h2 := ih h
      cases hps : pySplit sep r with
      | nil => exact absurd hps (pySplit_ne_nil sep r)
      | cons hd tl =>
        rw [pySplit_cons_neg (by simp [hp]) hps]
        rw [hps] at h2
        simpa using h2

theorem getLast?_of_ne_nil {α : Type} {t : List α} (h : t ≠ []) :
    ∃ z, t.getLast? = some z := by
  induction t with
  | nil => exact absurd rfl h
  | cons x xs ih =>
    cases xs with
    | nil => exact ⟨x, rfl⟩
    | cons y ys =>
      obtain ⟨z, hz⟩ := ih (by simp)
      exact ⟨z, by rw [List.getLast?_cons_cons, hz]⟩

theorem getLastD_cons' {α : Type} (a : α) (l : List α) (d : α) :
    (a :: l).getLastD d = l.getLastD a := by
  cases l with
  | nil => simp
  | cons x xs =>
    obtain ⟨z, hz⟩ := getLast?_of_ne_nil (t := x :: xs) (by simp)
    simp [hz]

theorem getLastD_indep {α : Type} {t : List α} (h : t ≠ []) (d₁ d₂ : α) :
    t.getLastD d₁ = t.getLastD d₂ := by
  obtain ⟨z, hz⟩ := getLast?_of_ne_nil h
  simp [hz]

/-- The base case of the split lemma: splitting `sep ++ b` where `sep` does
not occur in `b`. -/
theorem pySplit_sep_append {sep : List Char} (hne : sep ≠ []) {b : List Char}
    (hb : containsSub sep b = false) :
    (pySplit sep (sep ++ b)).getLastD [] = b := by
  cases sep with
  | nil => exact absurd rfl hne
  | cons s ss =>
    have hcond : ((s :: ss).isPrefixOf (s :: (ss ++ b)) && !(s :: ss).isEmpty) = true := by
      rw [show s :: (ss ++ b) = (s :: ss) ++ b from (List.cons_append s ss b).symm]
      simp [isPrefixOf_append_self]
    rw [show (s :: ss) ++ b = s :: (ss ++ b) from List.cons_append s ss b]
    rw [pySplit_cons_pos hcond]
    have hdrop : (ss ++ b).drop ((s :: ss).length - 1) = b := by
      simp only [List.length_cons, Nat.add_sub_cancel]
      exact List.drop_left ss b
    rw [hdrop, pySplit_not_contains _ _ hb, getLastD_cons']
    rfl

/-- `text.split(sep)[-1]` on `a ++ sep ++ b` is `b`, for a borderless
nonempty separator that does not occur in `b`. -/
theorem pySplit_append_getLast {sep : List Char} (hne : sep ≠ [])
    (hbl : Borderless sep) :
    ∀ (n : Nat) (a b : List Char), a.length ≤ n → containsSub sep b = false →
    (pySplit sep (a ++ (sep ++ b))).getLastD [] = b := by
  have hE : sep.isEmpty = false := by
    cases sep
    · exact absurd rfl hne
    · rfl
  intro n
  induction n with
  | zero =>
    intro a b ha hb
    have ha0 : a = [] := List.length_eq_zero.mp (Nat.le_zero.mp ha)
    subst ha0
    simpa using pySplit_sep_append hne hb
  | succ n ih =>
    intro a b ha hb
    cases a with
    | nil => simpa using pySplit_sep_append hne hb
    | cons c a' =>
      rw [show (c :: a') ++ (sep ++ b) = c :: (a' ++ (sep ++ b)) from
        List.cons_append c a' (sep ++ b)]
      by_cases hp : sep.isPrefixOf (c :: (a' ++ (sep ++ b))) = true
      · have hcond : (sep.isPrefixOf (c :: (a' ++ (sep ++ b))) && !sep.isEmpty) = true := by
          simp [hp, hE]
        obtain ⟨t, ht⟩ : ∃ t, sep ++ t = c :: (a' ++ (sep ++ b)) :=
          List.isPrefixOf_iff_prefix.mp hp
        by_cases hlen : sep.length ≤ (c :: a').length
        · -- the occurrence at the start lies inside `a`
          have hts : (c :: a').take sep.length = sep := by
            have h1 : (c :: (a' ++ (sep ++ b))).take sep.length = sep := by
              rw [← ht, List.take_left]
            have h2 : (c :: (a' ++ (sep ++ b))).take sep.length
                = (c :: a').take sep.length := by
              rw [show c :: (a' ++ (sep ++ b)) = (c :: a') ++ (sep ++ b) from
                (List.cons_append c a' (sep ++ b)).symm]
              rw [List.take_append_eq_append_take, Nat.sub_eq_zero_of_le hlen]
              simp
            rw [← h2, h1]
          rw [pySplit_cons_pos hcond]
          have hdrop : (a' ++ (sep ++ b)).drop (sep.length - 1)
              = ((c :: a').drop sep.length) ++ (sep ++ b) := by
            have e1 : (c :: (a' ++ (sep ++ b))).drop sep.length
                = (a' ++ (sep ++ b)).drop (sep.length - 1) := by
              cases sep with
              | nil => exact absurd rfl hne
              | cons s ss => simp [List.drop_succ_cons]
            have e2 : (c :: (a' ++ (sep ++ b))).drop sep.length
                = ((c :: a').drop sep.length) ++ (sep ++ b) := by
              rw [show c :: (a' ++ (sep ++ b)) = (c :: a') ++ (sep ++ b) from
                (List.cons_append c a' (sep ++ b)).symm]
              conv_lhs => rw [show (c :: a') = (c :: a').take sep.length
                ++ (c :: a').drop sep.length from (List.take_append_drop _ _).symm]
              rw [hts, List.append_assoc, List.drop_left]
            rw [← e1, e2]
          rw [hdrop]
          have hlen2 : ((c :: a').drop sep.length).length ≤ n := by
            have hs1 : 0 < sep.length := List.length_pos.mpr hne
            have hs2 : (c :: a').length ≤ n + 1 := ha
            simp only [List.length_drop, List.length_cons] at *
            omega
          rw [getLastD_cons']
          exact ih _ b hlen2 hb
        · -- the occurrence would overlap the inserted separator: border
          exfalso
          push_neg at hlen
          have hk1 : 0 < sep.length - (c :: a').length := by omega
          have hk2 : sep.length - (c :: a').length < sep.length := by
            have : 0 < (c :: a').length := by simp
            omega
          have h1 : sep = (c :: a') ++ sep.take (sep.length - (c :: a').length) := by
            have e1 : (c :: (a' ++ (sep ++ b))).take sep.length = sep := by
              rw [← ht, List.take_left]
            have e2 : (c :: (a' ++ (sep ++ b))).take sep.length
                = (c :: a') ++ ((sep ++ b).take (sep.length - (c :: a').length)) := by
              rw [show c :: (a' ++ (sep ++ b)) = (c :: a') ++ (sep ++ b) from
                (List.cons_append c a' (sep ++ b)).symm]
              rw [List.take_append_eq_append_take]
              rw [List.take_of_length_le (le_of_lt hlen)]
            have e3 : (sep ++ b).take (sep.length - (c :: a').length)
                = sep.take (sep.length - (c :: a').length) := by
              rw [List.take_append_eq_append_take]
              rw [Nat.sub_eq_zero_of_le (le_of_lt hk2)]
              simp
            conv_lhs => rw [← e1]
            rw [e2, e3]
          have h2 : sep.drop (sep.length - (sep.length - (c :: a').length))
              = sep.take (sep.length - (c :: a').length) := by
            have e4 : sep.length - (sep.length - (c :: a').length)
                = (c :: a').length := by omega
            rw [e4]
            conv_lhs => rw [h1]
            exact List.drop_left _ _
          exact hbl _ hk2 hk1 h2.symm
      · rw [Bool.not_eq_true] at hp
        have hcond : (sep.isPrefixOf (c :: (a' ++ (sep ++ b))) && !sep.isEmpty) = false := by
          simp [hp]
        have hcont : containsSub sep (a' ++ (sep ++ b)) = true :=
          containsSub_append sep a' b
        have hlen2 := pySplit_len2 hne hcont
        cases hps : pySplit sep (a' ++ (sep ++ b)) with
        | nil => exact absurd hps (pySplit_ne_nil sep _)
        | cons hd tl =>
          rw [pySplit_cons_neg hcond hps]
          have htl : tl ≠ [] := by
            rw [hps] at hlen2
            simp only [List.length_cons] at hlen2
            intro h0
            rw [h0] at hlen2
            simp at hlen2
          have iha : a'.length ≤ n := by
            simp only [List.length_cons] at ha
            omega
          have ihh := ih a' b iha hb
          rw [hps, getLastD_cons'] at ihh
          rw [getLastD_cons', getLastD_indep htl (c :: hd) hd]
          exact ihh

/-- C1: any text of the form `l₁ ++ "Final Answer:" ++ l₂` with no further
marker occurrence in `l₂` — regardless of what `l₁` contains, including a
well-formed Action block — is classified `Finish` whose output is `l₂`
(the text after the last marker occurrence) with surrounding whitespace
trimmed; the terminal check short-circuits the action check
(src/agent_core.py lines 18-20). -/
theorem C1_terminal_marker_short_circuits (t : String) (l₁ l₂ : List Char)
    (hsplit : t.data = l₁ ++ ("Final Answer:".data ++ l₂))
    (hafter : containsSub "Final Answer:".data l₂ = false) :
    ReActOutputParser.parse t = .ok (.finish (String.mk (pyStrip l₂)) t) := by
  have hc : containsSub "Final Answer:".data t.data = true := by
    rw [hsplit]; exact containsSub_append _ _ _
  have hl : (pySplit "Final Answer:".data t.data).getLastD [] = l₂ := by
    rw [hsplit]
    exact pySplit_append_getLast (by decide) marker_borderless
      l₁.length l₁ l₂ le_rfl hafter
  unfold ReActOutputParser.parse
  simp at hl
  simp [hc, hl]

/-- Witness for C1: a text holding a well-formed Action block *and* the
terminal marker is classified `Finish "42"`. -/
theorem C1_terminal_marker_short_circuits_witness :
    ReActOutputParser.parse
      "Action: ```json\n\x7b\"action\": \"T\", \"action_input\": \"x\"\x7d\n``` Final Answer: 42" =
    .ok (.finish "42"
      "Action: ```json\n\x7b\"action\": \"T\", \"action_input\": \"x\"\x7d\n``` Final Answer: 42") := by
  have h := C1_terminal_marker_short_circuits
    "Action: ```json\n\x7b\"action\": \"T\", \"action_input\": \"x\"\x7d\n``` Final Answer: 42"
    "Action: ```json\n\x7b\"action\": \"T\", \"action_input\": \"x\"\x7d\n``` ".data
    " 42".data (by decide) (by decide)
  rw [show String.mk (pyStrip " 42".data) = "42" from by decide] at h
  exact h

/-! ## Round-trip lemmas (C8): digits -/

theorem string_mk_data (s : String) : String.mk s.data = s := rfl

/-- Facts about digit characters, settled over the ten possible values. -/
theorem digit_facts : ∀ d, d < 10 →
    (digitCh d).isDigit = true ∧ jsonIsWs (digitCh d) = false ∧
    digitCh d ≠ '"' ∧ digitCh d ≠ '[' ∧ digitCh d ≠ lbrace ∧
    digitCh d ≠ 't' ∧ digitCh d ≠ 'f' ∧ digitCh d ≠ 'n' ∧ digitCh d ≠ '-' ∧
    (digitCh d).toNat - 48 = d ∧ (digitCh d = '0' ↔ d = 0) := by decide

theorem natDigitsRevGo_adequate : ∀ (n f f' : Nat), n < f → n < f' →
    natDigitsRevGo f n = natDigitsRevGo f' n := by
  intro n
  induction n using Nat.strong_induction_on with
  | _ n ih =>
    intro f f' hf hf'
    cases f with
    | zero => omega
    | succ a =>
      cases f' with
      | zero => omega
      | succ b =>
        simp only [natDigitsRevGo]
        by_cases h : n < 10
        · rw [if_pos h, if_pos h]
        · rw [if_neg h, if_neg h]
          have hlt : n / 10 < n := Nat.div_lt_self (by omega) (by omega)
          rw [ih (n / 10) hlt a b (by omega) (by omega)]

theorem natDigitsRev_eq (n : Nat) : natDigitsRev n =
    if n < 10 then [digitCh n] else digitCh (n % 10) :: natDigitsRev (n / 10) := by
  show natDigitsRevGo (n + 1) n = _
  simp only [natDigitsRevGo]
  by_cases h : n < 10
  · rw [if_pos h, if_pos h]
  · rw [if_neg h, if_neg h]
    have hlt : n / 10 < n := Nat.div_lt_self (by omega) (by omega)
    rw [natDigitsRevGo_adequate (n / 10) n (n / 10 + 1) hlt (by omega)]
    rfl

theorem natDigitsRev_digits : ∀ n, ∀ c ∈ natDigitsRev n, ∃ d, d < 10 ∧ c = digitCh d := by
  intro n
  induction n using Nat.strong_induction_on with
  | _ n ih =>
    intro c hc
    rw [natDigitsRev_eq] at hc
    by_cases h : n < 10
    · rw [if_pos h] at hc
      simp at hc
      exact ⟨n, h, hc⟩
    · rw [if_neg h] at hc
      rcases List.mem_cons.mp hc with h1 | h1
      · exact ⟨n % 10, Nat.mod_lt n (by omega), h1⟩
      · exact ih (n / 10) (Nat.div_lt_self (by omega) (by omega)) c h1

theorem natDigitsRev_ne_nil (n : Nat) : natDigitsRev n ≠ [] := by
  rw [natDigitsRev_eq]
  by_cases h : n < 10
  · rw [if_pos h]; simp
  · rw [if_neg h]; simp

theorem natDigits_ne_nil (n : Nat) : natDigits n ≠ [] := by
  unfold natDigits
  intro h
  exact natDigitsRev_ne_nil n (by simpa using h)

theorem natDigits_ten (n : Nat) (h : ¬ n < 10) :
    natDigits n = natDigits (n / 10) ++ [digitCh (n % 10)] := by
  unfold natDigits
  conv_lhs => rw [natDigitsRev_eq, if_neg h]
  simp

theorem natDigits_small (n : Nat) (h : n < 10) : natDigits n = [digitCh n] := by
  unfold natDigits
  rw [natDigitsRev_eq, if_pos h]
  rfl

theorem natDigits_foldl : ∀ n acc,
    List.foldl (fun a c => a * 10 + (c.toNat - 48)) acc (natDigits n)
      = acc * 10 ^ (natDigits n).length + n := by
  intro n
  induction n using Nat.strong_induction_on with
  | _ n ih =>
    intro acc
    by_cases h : n < 10
    · rw [natDigits_small n h]
      simp [(digit_facts n h).2.2.2.2.2.2.2.2.2.1]
    · rw [natDigits_ten n h]
      rw [List.foldl_append]
      have hd : n / 10 < n := Nat.div_lt_self (by omega) (by omega)
      rw [ih (n / 10) hd acc]
      have hm : (digitCh (n % 10)).toNat - 48 = n % 10 :=
        (digit_facts (n % 10) (Nat.mod_lt n (by omega))).2.2.2.2.2.2.2.2.2.1
      simp only [List.foldl_cons, List.foldl_nil, List.length_append,
        List.length_cons, List.length_nil, hm]
      rw [pow_succ]
      ring_nf
      omega

theorem digitsVal_natDigits (n : Nat) : digitsVal (natDigits n) = n := by
  unfold digitsVal
  rw [natDigits_foldl n 0]
  simp

theorem natDigits_head : ∀ n, 1 ≤ n →
    ∃ d ds, natDigits n = digitCh d :: ds ∧ 1 ≤ d ∧ d < 10 ∧
      ∀ c ∈ ds, ∃ e, e < 10 ∧ c = digitCh e := by
  intro n
  induction n using Nat.strong_induction_on with
  | _ n ih =>
    intro hn
    by_cases h : n < 10
    · exact ⟨n, [], natDigits_small n h, hn, h, by simp⟩
    · obtain ⟨d, ds, hds, hd1, hd2, hmem⟩ :=
        ih (n / 10) (Nat.div_lt_self (by omega) (by omega)) (by omega)
      refine ⟨d, ds ++ [digitCh (n % 10)], ?_, hd1, hd2, ?_⟩
      · rw [natDigits_ten n h, hds]
        simp
      · intro c hc
        rcases List.mem_append.mp hc with h1 | h1
        · exact hmem c h1
        · simp at h1
          exact ⟨n % 10, Nat.mod_lt n (by omega), h1⟩

theorem takeWhile_append_all {p : Char → Bool} :
    ∀ {xs rest : List Char}, (∀ x ∈ xs, p x = true) →
    (xs ++ rest).takeWhile p = xs ++ rest.takeWhile p := by
  intro xs
  induction xs with
  | nil => intro rest h; simp
  | cons x t ih =>
    intro rest h
    rw [List.cons_append, List.takeWhile_cons, if_pos (h x (by simp))]
    rw [ih (fun y hy => h y (by simp [hy]))]
    rfl

theorem dropWhile_append_all {p : Char → Bool} :
    ∀ {xs rest : List Char}, (∀ x ∈ xs, p x = true) →
    (xs ++ rest).dropWhile p = rest.dropWhile p := by
  intro xs
  induction xs with
  | nil => intro rest h; simp
  | cons x t ih =>
    intro rest h
    rw [List.cons_append, List.dropWhile_cons, if_pos (h x (by simp))]
    exact ih (fun y hy => h y (by simp [hy]))

/-- A legal continuation after a serialized JSON value: end of input, or a
separator/closer character. -/
def JDelim (rest : List Char) : Prop :=
  rest = [] ∨ ∃ c r, rest = c :: r ∧ (c = ',' ∨ c = ']' ∨ c = rbrace)

theorem jdelim_not_digit {rest : List Char} (h : JDelim rest) :
    rest = [] ∨ ∃ c r, rest = c :: r ∧ c.isDigit = false := by
  rcases h with h | ⟨c, r, hr, hc⟩
  · exact Or.inl h
  · refine Or.inr ⟨c, r, hr, ?_⟩
    rcases hc with h1 | h1 | h1 <;> subst h1 <;> decide

theorem checkNoFrac_delim {v : Int} {rest : List Char} (h : JDelim rest) :
    checkNoFrac v rest = some (v, rest) := by
  rcases h with h | ⟨c, r, hr, hc⟩
  · subst h; rfl
  · subst hr
    simp only [checkNoFrac]
    rcases hc with h1 | h1 | h1 <;> subst h1 <;> rw [if_neg (by decide)]

theorem parseJNat_natDigits (n : Nat) {rest : List Char}
    (hrest : rest = [] ∨ ∃ c r, rest = c :: r ∧ c.isDigit = false) :
    parseJNat (natDigits n ++ rest) = some (n, rest) := by
  have htake : rest.takeWhile Char.isDigit = [] ∧ rest.dropWhile Char.isDigit = rest := by
    rcases hrest with h | ⟨c, r, hr, hc⟩
    · subst h; simp
    · subst hr; simp [List.takeWhile_cons, List.dropWhile_cons, hc]
  by_cases hn : n = 0
  · subst hn
    rw [natDigits_small 0 (by omega)]
    simp only [List.cons_append, List.nil_append, parseJNat]
    rw [if_pos (show digitCh 0 = '0' from by decide)]
  · obtain ⟨d, ds, hds, hd1, hd2, hmem⟩ := natDigits_head n (by omega)
    rw [hds]
    simp only [List.cons_append, parseJNat]
    have hf := digit_facts d hd2
    rw [if_neg (by rw [hf.2.2.2.2.2.2.2.2.2.2]; omega)]
    rw [if_pos hf.1]
    have hall : ∀ x ∈ ds, x.isDigit = true := by
      intro x hx
      obtain ⟨e, he, hxe⟩ := hmem x hx
      rw [hxe]
      exact (digit_facts e he).1
    rw [takeWhile_append_all hall, dropWhile_append_all hall, htake.1, htake.2]
    rw [List.append_nil]
    have hv : digitsVal (digitCh d :: ds) = n := by
      rw [← hds]
      exact digitsVal_natDigits n
    rw [hv]

theorem parseJInt_serInt (n : Int) {rest : List Char} (h : JDelim rest) :
    parseJInt (serInt n ++ rest) = some (n, rest) := by
  have hnd := jdelim_not_digit h
  unfold serInt
  by_cases hneg : n < 0
  · rw [if_pos hneg]
    simp only [List.cons_append, parseJInt]
    rw [if_pos trivial]
    rw [parseJNat_natDigits n.natAbs hnd]
    simp only [Option.bind_eq_bind, Option.some_bind]
    rw [show -((n.natAbs : Nat) : Int) = n from by omega]
    exact checkNoFrac_delim h
  · rw [if_neg hneg]
    by_cases h0 : n.natAbs = 0
    · have hn0 : n = 0 := by omega
      subst hn0
      rw [show (0 : Int).natAbs = 0 from rfl, natDigits_small 0 (by omega)]
      simp only [List.cons_append, List.nil_append, parseJInt]
      rw [if_neg (show ¬ digitCh 0 = '-' from by decide)]
      rw [show digitCh 0 :: rest = natDigits 0 ++ rest from by
        rw [natDigits_small 0 (by omega)]; rfl]
      rw [parseJNat_natDigits 0 hnd]
      simp only [Option.bind_eq_bind, Option.some_bind, Nat.cast_zero]
      exact checkNoFrac_delim h
    · obtain ⟨d, ds, hds, hd1, hd2, hmem⟩ := natDigits_head n.natAbs (by omega)
      rw [hds]
      simp only [List.cons_append, parseJInt]
      rw [if_neg (digit_facts d hd2).2.2.2.2.2.2.2.2.1]
      rw [← List.cons_append, ← hds]
      rw [parseJNat_natDigits n.natAbs hnd]
      simp only [Option.bind_eq_bind, Option.some_bind]
      rw [show ((n.natAbs : Nat) : Int) = n from by omega]
      exact checkNoFrac_delim h

theorem hexVal_hexCh : ∀ d, d < 16 → hexVal (hexCh d) = some d := by decide

theorem hex4_esc (t : Nat) (h : t < 32) :
    hex4 '0' '0' (hexCh (t / 16)) (hexCh (t % 16)) = some t := by
  have h1 : hexVal (hexCh (t / 16)) = some (t / 16) := hexVal_hexCh _ (by omega)
  have h2 : hexVal (hexCh (t % 16)) = some (t % 16) := hexVal_hexCh _ (by omega)
  simp [hex4, h1, h2, show hexVal '0' = some 0 from by decide]
  omega

theorem parseJStringBody_esc : ∀ (s : List Char) (f : Nat) (rest : List Char),
    (escJString s).length + 1 ≤ f →
    parseJStringBody f (escJString s ++ ('"' :: rest)) = some (s, rest) := by
  intro s
  induction s with
  | nil =>
    intro f rest hf
    cases f with
    | zero => simp [escJString] at hf
    | succ f =>
      simp only [escJString, List.nil_append, parseJStringBody, if_true]
  | cons c cs ih =>
    intro f rest hf
    rw [show escJString (c :: cs) = escJChar c ++ escJString cs from rfl] at hf ⊢
    rw [List.append_assoc]
    simp only [List.length_append] at hf
    have hlen : 1 ≤ (escJChar c).length := by
      unfold escJChar
      repeat' split
      all_goals simp
    cases f with
    | zero => omega
    | succ f =>
      have hfs : (escJString cs).length + 1 ≤ f := by omega
      unfold escJChar
      by_cases h1 : c = '"'
      · rw [if_pos h1, h1]
        simp only [List.cons_append, List.nil_append, parseJStringBody, if_true]
        rw [if_neg (by decide : ¬ ('\\' : Char) = '"')]
        rw [ih f rest hfs]
        rfl
      · rw [if_neg h1]
        by_cases h2 : c = '\\'
        · rw [if_pos h2, h2]
          simp only [List.cons_append, List.nil_append, parseJStringBody, if_true]
          rw [if_neg (by decide : ¬ ('\\' : Char) = '"'),
            if_neg (by decide : ¬ ('\\' : Char) = '"')]
          rw [ih f rest hfs]
          rfl
        · rw [if_neg h2]
          by_cases h3 : c = '\n'
          · rw [if_pos h3, h3]
            simp only [List.cons_append, List.nil_append, parseJStringBody, if_true]
            rw [if_neg (by decide : ¬ ('\\' : Char) = '"'),
              if_neg (by decide : ¬ ('n' : Char) = '"'),
              if_neg (by decide : ¬ ('n' : Char) = '\\'),
              if_neg (by decide : ¬ ('n' : Char) = '/'),
              if_neg (by decide : ¬ ('n' : Char) = 'b'),
              if_neg (by decide : ¬ ('n' : Char) = 'f')]
            rw [ih f rest hfs]
            rfl
          · rw [if_neg h3]
            by_cases h4 : c = '\r'
            · rw [if_pos h4, h4]
              simp only [List.cons_append, List.nil_append, parseJStringBody, if_true]
              rw [if_neg (by decide : ¬ ('\\' : Char) = '"'),
                if_neg (by decide : ¬ ('r' : Char) = '"'),
                if_neg (by decide : ¬ ('r' : Char) = '\\'),
                if_neg (by decide : ¬ ('r' : Char) = '/'),
                if_neg (by decide : ¬ ('r' : Char) = 'b'),
                if_neg (by decide : ¬ ('r' : Char) = 'f'),
                if_neg (by decide : ¬ ('r' : Char) = 'n')]
              rw [ih f rest hfs]
              rfl
            · rw [if_neg h4]
              by_cases h5 : c = '\t'
              · rw [if_pos h5, h5]
                simp only [List.cons_append, List.nil_append, parseJStringBody, if_true]
                rw [if_neg (by decide : ¬ ('\\' : Char) = '"'),
                  if_neg (by decide : ¬ ('t' : Char) = '"'),
                  if_neg (by decide : ¬ ('t' : Char) = '\\'),
                  if_neg (by decide : ¬ ('t' : Char) = '/'),
                  if_neg (by decide : ¬ ('t' : Char) = 'b'),
                  if_neg (by decide : ¬ ('t' : Char) = 'f'),
                  if_neg (by decide : ¬ ('t' : Char) = 'n'),
                  if_neg (by decide : ¬ ('t' : Char) = 'r')]
                rw [ih f rest hfs]
                rfl
              · rw [if_neg h5]
                by_cases h6 : c = '\x08'
                · rw [if_pos h6, h6]
                  simp only [List.cons_append, List.nil_append, parseJStringBody, if_true]
                  rw [if_neg (by decide : ¬ ('\\' : Char) = '"'),
                    if_neg (by decide : ¬ ('b' : Char) = '"'),
                    if_neg (by decide : ¬ ('b' : Char) = '\\'),
                    if_neg (by decide : ¬ ('b' : Char) = '/')]
                  rw [ih f rest hfs]
                  rfl
                · rw [if_neg h6]
                  by_cases h7 : c = '\x0c'
                  · rw [if_pos h7, h7]
                    simp only [List.cons_append, List.nil_append, parseJStringBody, if_true]
                    rw [if_neg (by decide : ¬ ('\\' : Char) = '"'),
                      if_neg (by decide : ¬ ('f' : Char) = '"'),
                      if_neg (by decide : ¬ ('f' : Char) = '\\'),
                      if_neg (by decide : ¬ ('f' : Char) = '/'),
                      if_neg (by decide : ¬ ('f' : Char) = 'b')]
                    rw [ih f rest hfs]
                    rfl
                  · rw [if_neg h7]
                    by_cases h8 : c.toNat < 0x20
                    · rw [if_pos h8]
                      simp only [List.cons_append, List.nil_append, parseJStringBody,
                        if_true]
                      rw [if_neg (by decide : ¬ ('\\' : Char) = '"'),
                        if_neg (by decide : ¬ ('u' : Char) = '"'),
                        if_neg (by decide : ¬ ('u' : Char) = '\\'),
                        if_neg (by decide : ¬ ('u' : Char) = '/'),
                        if_neg (by decide : ¬ ('u' : Char) = 'b'),
                        if_neg (by decide : ¬ ('u' : Char) = 'f'),
                        if_neg (by decide : ¬ ('u' : Char) = 'n'),
                        if_neg (by decide : ¬ ('u' : Char) = 'r'),
                        if_neg (by decide : ¬ ('u' : Char) = 't')]
                      simp only [hex4_esc c.toNat (by omega)]
                      rw [if_pos (by
                        simp only [Bool.or_eq_true, decide_eq_true_eq]
                        left
                        omega)]
                      rw [ih f rest hfs, Char.ofNat_toNat]
                      rfl
                    · rw [if_neg h8]
                      simp only [List.cons_append, List.nil_append, parseJStringBody]
                      rw [if_neg h1, if_neg h2, if_neg h8]
                      rw [ih f rest hfs]
                      rfl

theorem fuelOf_pos (v : PyVal) : 1 ≤ fuelOf v := by
  cases v <;> simp only [fuelOf] <;> omega

theorem digitCh_disp : ∀ d, d < 10 → jsonIsWs (digitCh d) = false ∧
    digitCh d ≠ '"' ∧ digitCh d ≠ '[' ∧ digitCh d ≠ lbrace ∧
    digitCh d ≠ 't' ∧ digitCh d ≠ 'f' ∧ digitCh d ≠ 'n' ∧ digitCh d ≠ ']' := by
  decide

theorem natDigits_cases (m : Nat) : ∃ d r, d < 10 ∧ natDigits m = digitCh d :: r := by
  cases hd : natDigits m with
  | nil => exact absurd hd (natDigits_ne_nil m)
  | cons c r =>
    have hc : c ∈ natDigits m := by rw [hd]; simp
    have hc2 : c ∈ natDigitsRev m := by
      rw [natDigits, List.mem_reverse] at hc
      exact hc
    obtain ⟨d, hd10, hcd⟩ := natDigitsRev_digits m c hc2
    refine ⟨d, r, hd10, ?_⟩
    rw [hcd]

theorem serInt_head (n : Int) : ∃ c r, serInt n = c :: r ∧ jsonIsWs c = false ∧
    c ≠ '"' ∧ c ≠ '[' ∧ c ≠ lbrace ∧ c ≠ 't' ∧ c ≠ 'f' ∧ c ≠ 'n' ∧ c ≠ ']' := by
  unfold serInt
  by_cases hn : n < 0
  · rw [if_pos hn]
    exact ⟨'-', _, rfl, by decide, by decide, by decide, by decide, by decide,
      by decide, by decide, by decide⟩
  · rw [if_neg hn]
    obtain ⟨d, r, hd10, hnd⟩ := natDigits_cases n.natAbs
    obtain ⟨w1, w2, w3, w4, w5, w6, w7, w8⟩ := digitCh_disp d hd10
    exact ⟨digitCh d, r, hnd, w1, w2, w3, w4, w5, w6, w7, w8⟩

theorem serJ_head (v : PyVal) :
    ∃ c r, serJ v = c :: r ∧ jsonIsWs c = false ∧ c ≠ ']' := by
  cases v with
  | null => exact ⟨'n', ['u', 'l', 'l'], by simp only [serJ], by decide, by decide⟩
  | bool b =>
    cases b with
    | true => exact ⟨'t', ['r', 'u', 'e'], by simp only [serJ], by decide, by decide⟩
    | false => exact ⟨'f', ['a', 'l', 's', 'e'], by simp only [serJ], by decide, by decide⟩
  | int n =>
    obtain ⟨c, r, hser, hws, -, -, -, -, -, -, hne⟩ := serInt_head n
    exact ⟨c, r, by simp only [serJ]; exact hser, hws, hne⟩
  | str s =>
    exact ⟨'"', escJString s.data ++ ['"'], by simp only [serJ], by decide, by decide⟩
  | list xs =>
    exact ⟨'[', serItems xs ++ [']'], by simp only [serJ], by decide, by decide⟩
  | tuple xs =>
    exact ⟨'[', serItems xs ++ [']'], by simp only [serJ], by decide, by decide⟩
  | set xs => exact ⟨'!', [], by simp only [serJ], by decide, by decide⟩
  | dict kvs =>
    exact ⟨lbrace, serMembers kvs ++ [rbrace], by simp only [serJ], by decide, by decide⟩

theorem skipWs_cons_not {c : Char} (h : jsonIsWs c = false) (r : List Char) :
    skipWs (c :: r) = c :: r := by
  simp [skipWs, List.dropWhile_cons, h]

theorem skipWs_serJ_append (v : PyVal) (X : List Char) :
    skipWs (serJ v ++ X) = serJ v ++ X := by
  obtain ⟨c, r, hser, hws, -⟩ := serJ_head v
  rw [hser, List.cons_append]
  exact skipWs_cons_not hws _

theorem skipWs_serItems_append (x : PyVal) (t : List PyVal) (X : List Char) :
    skipWs (serItems (x :: t) ++ X) = serItems (x :: t) ++ X := by
  cases t with
  | nil =>
    simp only [serItems]
    exact skipWs_serJ_append x X
  | cons y t' =>
    simp only [serItems]
    rw [List.append_assoc]
    exact skipWs_serJ_append x _

theorem serItems_cons_shape (y : PyVal) (t' : List PyVal) (X : List Char) :
    ∃ c Y, serItems (y :: t') ++ X = c :: Y ∧ jsonIsWs c = false ∧ c ≠ ']' := by
  obtain ⟨c, r, hser, hws, hne⟩ := serJ_head y
  cases t' with
  | nil =>
    refine ⟨c, r ++ X, ?_, hws, hne⟩
    simp only [serItems, hser, List.cons_append]
  | cons z t'' =>
    refine ⟨c, r ++ ((',' :: serItems (z :: t'')) ++ X), ?_, hws, hne⟩
    simp only [serItems, hser, List.cons_append, List.append_assoc]

theorem dictIns_not_mem {acc : List (PyVal × PyVal)} {p : PyVal × PyVal}
    (h : ∀ q ∈ acc, q.1 ≠ p.1) : dictIns acc p = acc ++ [p] := by
  unfold dictIns
  rw [if_neg]
  intro hc
  rw [List.any_eq_true] at hc
  obtain ⟨q, hq, hqe⟩ := hc
  exact h q hq (eq_of_beq hqe)

theorem foldl_dictIns_nodup : ∀ (ps acc : List (PyVal × PyVal)),
    ((acc ++ ps).map Prod.fst).Nodup → ps.foldl dictIns acc = acc ++ ps := by
  intro ps
  induction ps with
  | nil => intro acc _; simp
  | cons p t ih =>
    intro acc h
    rw [List.foldl_cons]
    have hne : ∀ q ∈ acc, q.1 ≠ p.1 := by
      intro q hq heq
      rw [List.map_append, List.nodup_append] at h
      obtain ⟨-, -, hdisj⟩ := h
      exact hdisj (List.mem_map_of_mem Prod.fst hq)
        (by rw [heq]; exact List.mem_map_of_mem Prod.fst (by simp))
    rw [dictIns_not_mem hne]
    have h2 : (((acc ++ [p]) ++ t).map Prod.fst).Nodup := by
      rw [List.append_assoc]
      simpa using h
    rw [ih (acc ++ [p]) h2]
    simp

theorem dictOfPairs_nodup {ps : List (PyVal × PyVal)}
    (h : (ps.map Prod.fst).Nodup) : dictOfPairs ps = ps := by
  unfold dictOfPairs
  rw [foldl_dictIns_nodup ps [] (by simpa using h)]
  simp

theorem FA_list : ∀ (xs : List PyVal),
    (∀ x ∈ xs, isJsonB x = true → fuelOf x + 1 ≤ 2 * (serJ x).length) →
    isJsonListB xs = true → fuelOfList xs ≤ 2 * (serItems xs).length + 2 := by
  intro xs
  induction xs with
  | nil =>
    intro _ _
    simp only [fuelOfList, serItems, List.length_nil]
    omega
  | cons x t ih =>
    intro hmem hj
    simp only [isJsonListB, Bool.and_eq_true] at hj
    obtain ⟨hx, ht⟩ := hj
    have h1 := hmem x (by simp) hx
    cases t with
    | nil =>
      simp only [serItems, fuelOfList]
      omega
    | cons y t' =>
      have h2 := ih (fun z hz => hmem z (by simp [hz])) ht
      simp only [serItems, fuelOfList, List.length_append, List.length_cons] at h2 ⊢
      omega

theorem FA_pairs : ∀ (kvs : List (PyVal × PyVal)),
    (∀ p ∈ kvs, isJsonB p.2 = true → fuelOf p.2 + 1 ≤ 2 * (serJ p.2).length) →
    isJsonPairsB kvs = true → fuelOfPairs kvs ≤ 2 * (serMembers kvs).length + 2 := by
  intro kvs
  induction kvs with
  | nil =>
    intro _ _
    simp only [fuelOfPairs, serMembers, List.length_nil]
    omega
  | cons p t ih =>
    intro hmem hj
    obtain ⟨k, v⟩ := p
    simp only [isJsonPairsB, Bool.and_eq_true] at hj
    obtain ⟨⟨hk, hv⟩, ht⟩ := hj
    have h1 : fuelOf v + 1 ≤ 2 * (serJ v).length := hmem (k, v) (by simp) hv
    cases t with
    | nil =>
      simp only [serMembers, fuelOfPairs, List.length_append, List.length_cons]
      omega
    | cons q t' =>
      have h2 := ih (fun z hz => hmem z (by simp [hz])) ht
      simp only [serMembers, fuelOfPairs, List.length_append, List.length_cons] at h2 ⊢
      omega

theorem FA1 : ∀ v : PyVal, isJsonB v = true → fuelOf v + 1 ≤ 2 * (serJ v).length := by
  intro v
  induction v using PyVal.inductionOn with
  | hnull => intro _; simp [fuelOf, serJ]
  | hbool b => intro _; cases b <;> simp [fuelOf, serJ]
  | hint n =>
    intro _
    obtain ⟨c, r, hser, -⟩ := serInt_head n
    simp only [fuelOf, serJ, hser, List.length_cons]
    omega
  | hstr s =>
    intro _
    simp only [fuelOf, serJ, List.length_cons, List.length_append, List.length_nil]
    omega
  | hlist xs hmem =>
    intro hj
    simp only [isJsonB] at hj
    have h := FA_list xs (fun x hx => hmem x hx) hj
    simp only [fuelOf, serJ, List.length_cons, List.length_append, List.length_nil]
    omega
  | htuple xs hmem => intro hj; simp [isJsonB] at hj
  | hset xs hmem => intro hj; simp [isJsonB] at hj
  | hdict kvs hmem =>
    intro hj
    simp only [isJsonB, Bool.and_eq_true] at hj
    obtain ⟨-, hp⟩ := hj
    have h := FA_pairs kvs (fun p hpm => (hmem p hpm).2) hp
    simp only [fuelOf, serJ, List.length_cons, List.length_append, List.length_nil]
    omega

theorem serMembers_str_head (s2 : String) (v2 : PyVal) (t' : List (PyVal × PyVal))
    (X : List Char) :
    serMembers ((PyVal.str s2, v2) :: t') ++ X
      = '"' :: ((serMembers ((PyVal.str s2, v2) :: t') ++ X).tail) := by
  cases t' with
  | nil =>
    simp only [serMembers, serJ, List.cons_append, List.append_assoc, List.nil_append,
      List.tail_cons]
  | cons q2 t'' =>
    simp only [serMembers, serJ, List.cons_append, List.append_assoc, List.nil_append,
      List.tail_cons]

theorem jsonRoundTrip : ∀ f : Nat,
    (∀ (v : PyVal) (rest : List Char), isJsonB v = true → fuelOf v ≤ f → JDelim rest →
      parseJValue f (serJ v ++ rest) = some (v, rest)) ∧
    (∀ (xs : List PyVal) (rest : List Char), isJsonListB xs = true → fuelOfList xs ≤ f →
      parseJItems f (serItems xs ++ (']' :: rest)) = some (xs, rest)) ∧
    (∀ (kvs : List (PyVal × PyVal)) (rest : List Char), isJsonPairsB kvs = true →
      fuelOfPairs kvs ≤ f →
      parseJMembers f (serMembers kvs ++ (rbrace :: rest)) = some (kvs, rest)) := by
  intro f
  induction f using Nat.strong_induction_on with
  | _ f ih =>
    refine ⟨?_, ?_, ?_⟩
    · intro v rest hj hfuel hdelim
      have hpos := fuelOf_pos v
      cases f with
      | zero => omega
      | succ f =>
        cases v with
        | null =>
          have e1 : serJ PyVal.null ++ rest = 'n' :: (['u', 'l', 'l'] ++ rest) := by
            simp only [serJ]; rfl
          rw [e1]
          simp only [parseJValue,
            skipWs_cons_not (show jsonIsWs 'n' = false from by decide)]
          rw [if_neg (by decide : ¬ ('n' : Char) = '"'),
            if_neg (by decide : ¬ ('n' : Char) = '['),
            if_neg (by decide : ¬ ('n' : Char) = lbrace),
            if_neg (by decide : ¬ ('n' : Char) = 't'),
            if_neg (by decide : ¬ ('n' : Char) = 'f'),
            if_pos trivial]
          rw [isPrefixOf_append_self, if_pos rfl]
          rw [show (3 : Nat) = (['u', 'l', 'l'] : List Char).length from rfl,
            List.drop_left]
        | bool b =>
          cases b with
          | true =>
            have e1 : serJ (PyVal.bool true) ++ rest
                = 't' :: (['r', 'u', 'e'] ++ rest) := by
              simp only [serJ]; rfl
            rw [e1]
            simp only [parseJValue,
              skipWs_cons_not (show jsonIsWs 't' = false from by decide)]
            rw [if_neg (by decide : ¬ ('t' : Char) = '"'),
              if_neg (by decide : ¬ ('t' : Char) = '['),
              if_neg (by decide : ¬ ('t' : Char) = lbrace),
              if_pos trivial]
            rw [isPrefixOf_append_self, if_pos rfl]
            rw [show (3 : Nat) = (['r', 'u', 'e'] : List Char).length from rfl,
              List.drop_left]
          | false =>
            have e1 : serJ (PyVal.bool false) ++ rest
                = 'f' :: (['a', 'l', 's', 'e'] ++ rest) := by
              simp only [serJ]; rfl
            rw [e1]
            simp only [parseJValue,
              skipWs_cons_not (show jsonIsWs 'f' = false from by decide)]
            rw [if_neg (by decide : ¬ ('f' : Char) = '"'),
              if_neg (by decide : ¬ ('f' : Char) = '['),
              if_neg (by decide : ¬ ('f' : Char) = lbrace),
              if_neg (by decide : ¬ ('f' : Char) = 't'),
              if_pos trivial]
            rw [isPrefixOf_append_self, if_pos rfl]
            rw [show (4 : Nat) = (['a', 'l', 's', 'e'] : List Char).length from rfl,
              List.drop_left]
        | int n =>
          obtain ⟨c, r, hser, hws, hne1, hne2, hne3, hne4, hne5, hne6, -⟩ := serInt_head n
          have e1 : serJ (PyVal.int n) ++ rest = c :: (r ++ rest) := by
            simp only [serJ, hser]; rfl
          rw [e1]
          simp only [parseJValue, skipWs_cons_not hws]
          rw [if_neg hne1, if_neg hne2, if_neg hne3, if_neg hne4, if_neg hne5, if_neg hne6]
          rw [show c :: (r ++ rest) = serInt n ++ rest from by rw [hser]; rfl]
          rw [parseJInt_serInt n hdelim]
          rfl
        | str s =>
          have e1 : serJ (PyVal.str s) ++ rest
              = '"' :: (escJString s.data ++ ('"' :: rest)) := by
            simp only [serJ, List.cons_append, List.append_assoc, List.nil_append]
          rw [e1]
          simp only [parseJValue,
            skipWs_cons_not (show jsonIsWs '"' = false from by decide)]
          rw [if_pos trivial]
          have hsb := parseJStringBody_esc s.data
            ((escJString s.data ++ ('"' :: rest)).length + 1) rest
            (by simp only [List.length_append, List.length_cons]; omega)
          rw [hsb]
          rfl
        | list xs =>
          have hjl : isJsonListB xs = true := by simpa [isJsonB] using hj
          have hfl : fuelOfList xs ≤ f := by
            simp only [fuelOf] at hfuel; omega
          have e1 : serJ (PyVal.list xs) ++ rest
              = '[' :: (serItems xs ++ (']' :: rest)) := by
            simp only [serJ, List.cons_append, List.append_assoc, List.nil_append]
          rw [e1]
          simp only [parseJValue,
            skipWs_cons_not (show jsonIsWs '[' = false from by decide)]
          rw [if_neg (by decide : ¬ ('[' : Char) = '"'),
            if_pos trivial]
          have e2 : skipWs (serItems xs ++ (']' :: rest))
              = serItems xs ++ (']' :: rest) := by
            cases xs with
            | nil =>
              simp only [serItems, List.nil_append]
              exact skipWs_cons_not (by decide) rest
            | cons x t => exact skipWs_serItems_append x t _
          rw [e2]
          rw [(ih f (by omega)).2.1 xs rest hjl hfl]
          rfl
        | tuple xs => simp [isJsonB] at hj
        | set xs => simp [isJsonB] at hj
        | dict kvs =>
          simp only [isJsonB, Bool.and_eq_true, decide_eq_true_eq] at hj
          obtain ⟨hnd, hp⟩ := hj
          have hfp : fuelOfPairs kvs ≤ f := by simp only [fuelOf] at hfuel; omega
          have e1 : serJ (PyVal.dict kvs) ++ rest
              = lbrace :: (serMembers kvs ++ (rbrace :: rest)) := by
            simp only [serJ, List.cons_append, List.append_assoc, List.nil_append]
          rw [e1]
          simp only [parseJValue,
            skipWs_cons_not (show jsonIsWs lbrace = false from by decide)]
          rw [if_neg (by decide : ¬ lbrace = '"'),
            if_neg (by decide : ¬ lbrace = '['),
            if_pos trivial]
          have e2 : skipWs (serMembers kvs ++ (rbrace :: rest))
              = serMembers kvs ++ (rbrace :: rest) := by
            cases kvs with
            | nil =>
              simp only [serMembers, List.nil_append]
              exact skipWs_cons_not (by decide) rest
            | cons p t =>
              obtain ⟨k, v⟩ := p
              obtain ⟨c, r, hser, hws, -⟩ := serJ_head k
              cases t with
              | nil =>
                simp only [serMembers]
                rw [hser]
                simp only [List.cons_append, List.append_assoc]
                exact skipWs_cons_not hws _
              | cons q t' =>
                simp only [serMembers]
                rw [hser]
                simp only [List.cons_append, List.append_assoc]
                exact skipWs_cons_not hws _
          rw [e2]
          rw [(ih f (by omega)).2.2 kvs rest hp hfp]
          show some (PyVal.dict (dictOfPairs kvs), rest) = some (PyVal.dict kvs, rest)
          rw [dictOfPairs_nodup hnd]
    · intro xs rest hj hfuel
      cases f with
      | zero =>
        exfalso
        cases xs with
        | nil => simp only [fuelOfList] at hfuel; omega
        | cons x t => simp only [fuelOfList] at hfuel; omega
      | succ f =>
        cases xs with
        | nil =>
          simp only [serItems, List.nil_append, parseJItems]
          rw [if_pos trivial]
        | cons x t =>
          simp only [isJsonListB, Bool.and_eq_true] at hj
          obtain ⟨hx, ht⟩ := hj
          obtain ⟨c, r, hser, hws, hne⟩ := serJ_head x
          cases t with
          | nil =>
            have e1 : serItems [x] ++ (']' :: rest) = c :: (r ++ (']' :: rest)) := by
              simp only [serItems, hser]; rfl
            rw [e1]
            simp only [parseJItems]
            rw [if_neg hne]
            rw [show c :: (r ++ (']' :: rest)) = serJ x ++ (']' :: rest) from by
              rw [hser]; rfl]
            have hv := (ih f (by omega)).1 x (']' :: rest) hx
              (by simp only [fuelOfList] at hfuel; omega)
              (Or.inr ⟨']', rest, rfl, Or.inr (Or.inl rfl)⟩)
            simp only [hv,
              skipWs_cons_not (show jsonIsWs ']' = false from by decide)]
            rw [if_neg (by decide : ¬ (']' : Char) = ','),
              if_pos trivial]
          | cons y t' =>
            have e1 : serItems (x :: y :: t') ++ (']' :: rest)
                = c :: (r ++ (',' :: (serItems (y :: t') ++ (']' :: rest)))) := by
              simp only [serItems, hser, List.cons_append, List.append_assoc]
            rw [e1]
            simp only [parseJItems]
            rw [if_neg hne]
            rw [show c :: (r ++ (',' :: (serItems (y :: t') ++ (']' :: rest))))
                = serJ x ++ (',' :: (serItems (y :: t') ++ (']' :: rest))) from by
              rw [hser]; rfl]
            have hv := (ih f (by omega)).1 x
              (',' :: (serItems (y :: t') ++ (']' :: rest))) hx
              (by simp only [fuelOfList] at hfuel; omega)
              (Or.inr ⟨',', _, rfl, Or.inl rfl⟩)
            simp only [hv,
              skipWs_cons_not (show jsonIsWs ',' = false from by decide)]
            rw [if_pos trivial]
            rw [skipWs_serItems_append y t' (']' :: rest)]
            obtain ⟨cy, Y, hcy, hwsy, hney⟩ := serItems_cons_shape y t' (']' :: rest)
            simp only [hcy]
            rw [if_neg hney]
            rw [← hcy]
            have hrec := (ih f (by omega)).2.1 (y :: t') rest ht
              (by
                have hpx := fuelOf_pos x
                simp only [fuelOfList] at hfuel ⊢
                omega)
            rw [hrec]
            rfl
    · intro kvs rest hj hfuel
      cases f with
      | zero =>
        exfalso
        cases kvs with
        | nil => simp only [fuelOfPairs] at hfuel; omega
        | cons p t =>
          obtain ⟨k, v⟩ := p
          simp only [fuelOfPairs] at hfuel
          omega
      | succ f =>
        cases kvs with
        | nil =>
          simp only [serMembers, List.nil_append, parseJMembers]
          rw [if_pos trivial]
        | cons p t =>
          obtain ⟨k, v⟩ := p
          simp only [isJsonPairsB, Bool.and_eq_true] at hj
          obtain ⟨⟨hks, hv⟩, ht⟩ := hj
          cases k with
          | null => simp [PyVal.isStr] at hks
          | bool b => simp [PyVal.isStr] at hks
          | int n => simp [PyVal.isStr] at hks
          | list l => simp [PyVal.isStr] at hks
          | tuple l => simp [PyVal.isStr] at hks
          | set l => simp [PyVal.isStr] at hks
          | dict d => simp [PyVal.isStr] at hks
          | str s =>
            cases t with
            | nil =>
              have e1 : serMembers [(PyVal.str s, v)] ++ (rbrace :: rest)
                  = '"' :: (escJString s.data
                      ++ ('"' :: (':' :: (serJ v ++ (rbrace :: rest))))) := by
                simp only [serMembers, serJ, List.cons_append, List.append_assoc,
                  List.nil_append]
              rw [e1]
              simp only [parseJMembers]
              rw [if_neg (by decide : ¬ ('"' : Char) = rbrace),
                if_pos trivial]
              have hsb := parseJStringBody_esc s.data
                ((escJString s.data ++ ('"' :: (':' :: (serJ v ++ (rbrace :: rest))))).length + 1)
                (':' :: (serJ v ++ (rbrace :: rest)))
                (by simp only [List.length_append, List.length_cons]; omega)
              simp only [hsb,
                skipWs_cons_not (show jsonIsWs ':' = false from by decide)]
              rw [if_pos trivial]
              rw [skipWs_serJ_append v (rbrace :: rest)]
              have hrv := (ih f (by omega)).1 v (rbrace :: rest) hv
                (by simp only [fuelOfPairs] at hfuel; omega)
                (Or.inr ⟨rbrace, rest, rfl, Or.inr (Or.inr rfl)⟩)
              simp only [hrv,
                skipWs_cons_not (show jsonIsWs rbrace = false from by decide)]
              rw [if_neg (by decide : ¬ rbrace = ','),
                if_pos trivial]
            | cons q t' =>
              obtain ⟨k2, v2⟩ := q
              have hk2s : k2.isStr = true := by
                simp only [isJsonPairsB, Bool.and_eq_true] at ht
                exact ht.1.1
              cases k2 with
              | null => simp [PyVal.isStr] at hk2s
              | bool b => simp [PyVal.isStr] at hk2s
              | int n => simp [PyVal.isStr] at hk2s
              | list l => simp [PyVal.isStr] at hk2s
              | tuple l => simp [PyVal.isStr] at hk2s
              | set l => simp [PyVal.isStr] at hk2s
              | dict d => simp [PyVal.isStr] at hk2s
              | str s2 =>
                have e1 : serMembers ((PyVal.str s, v) :: (PyVal.str s2, v2) :: t')
                      ++ (rbrace :: rest)
                    = '"' :: (escJString s.data
                        ++ ('"' :: (':' :: (serJ v
                          ++ (',' :: (serMembers ((PyVal.str s2, v2) :: t')
                            ++ (rbrace :: rest))))))) := by
                  simp only [serMembers, serJ, List.cons_append, List.append_assoc,
                    List.nil_append]
                rw [e1]
                simp only [parseJMembers]
                rw [if_neg (by decide : ¬ ('"' : Char) = rbrace),
                  if_pos trivial]
                have hsb := parseJStringBody_esc s.data
                  ((escJString s.data ++ ('"' :: (':' :: (serJ v
                    ++ (',' :: (serMembers ((PyVal.str s2, v2) :: t')
                      ++ (rbrace :: rest))))))).length + 1)
                  (':' :: (serJ v ++ (',' :: (serMembers ((PyVal.str s2, v2) :: t')
                    ++ (rbrace :: rest)))))
                  (by simp only [List.length_append, List.length_cons]; omega)
                simp only [hsb,
                  skipWs_cons_not (show jsonIsWs ':' = false from by decide)]
                rw [if_pos trivial]
                rw [skipWs_serJ_append v _]
                have hrv := (ih f (by omega)).1 v
                  (',' :: (serMembers ((PyVal.str s2, v2) :: t') ++ (rbrace :: rest)))
                  hv
                  (by simp only [fuelOfPairs] at hfuel; omega)
                  (Or.inr ⟨',', _, rfl, Or.inl rfl⟩)
                simp only [hrv,
                  skipWs_cons_not (show jsonIsWs ',' = false from by decide)]
                rw [if_pos trivial]
                rw [serMembers_str_head s2 v2 t' (rbrace :: rest)]
                simp only [skipWs_cons_not (show jsonIsWs '"' = false from by decide)]
                rw [if_pos trivial]
                rw [← serMembers_str_head s2 v2 t' (rbrace :: rest)]
                have hrec := (ih f (by omega)).2.2 ((PyVal.str s2, v2) :: t') rest ht
                  (by
                    have hpv := fuelOf_pos v
                    simp only [fuelOfPairs] at hfuel ⊢
                    omega)
                rw [hrec]
                rw [string_mk_data]
                rfl

theorem jsonLoads_serJ {v : PyVal} (hj : isJsonB v = true) :
    jsonLoads (serJ v) = some v := by
  have hfa := FA1 v hj
  have h := (jsonRoundTrip (2 * (serJ v).length + 2)).1 v [] hj (by omega) (Or.inl rfl)
  rw [List.append_nil] at h
  simp [jsonLoads, h, skipWs]

theorem pyStrip_serJ {v : PyVal} (hdl : isDictOrList v = true) :
    pyStrip (serJ v) = serJ v := by
  cases v with
  | list xs =>
    have e1 : serJ (PyVal.list xs) = '[' :: (serItems xs ++ [']']) := by
      simp only [serJ]
    rw [e1]
    exact stripChars_eq_self (by decide) (by decide)
  | dict kvs =>
    have e1 : serJ (PyVal.dict kvs) = lbrace :: (serMembers kvs ++ [rbrace]) := by
      simp only [serJ]
    rw [e1]
    exact stripChars_eq_self (by decide) (by decide)
  | null => simp [isDictOrList] at hdl
  | bool b => simp [isDictOrList] at hdl
  | int n => simp [isDictOrList] at hdl
  | str s => simp [isDictOrList] at hdl
  | tuple xs => simp [isDictOrList] at hdl
  | set xs => simp [isDictOrList] at hdl

/-- C8: round-trip through the spec-modelled strict JSON serializer: for
every JSON object or array `v`, the recoverer applied to the serialized
string returns `v`, and already the first strategy (the strict JSON parse
of the trimmed string, src/main.py lines 99-102) recovers it. -/
theorem C8_serialize_roundtrip (v : PyVal)
    (hj : isJsonB v = true) (hdl : isDictOrList v = true) :
    tryExtractJsonFromText (PyVal.str (String.mk (serJ v))) = .ok (some v) ∧
    stage1 (pyStrip (serJ v)) = some v := by
  have hs : pyStrip (serJ v) = serJ v := pyStrip_serJ hdl
  have h1 : stage1 (serJ v) = some v := by
    unfold stage1
    exact jsonLoads_serJ hj
  refine ⟨?_, ?_⟩
  · simp only [tryExtractJsonFromText]
    rw [show pyStrip (String.mk (serJ v)).data = serJ v from hs]
    simp only [h1]
  · rw [hs, h1]

theorem C8_serialize_roundtrip_witness :
    isJsonB (PyVal.dict [(PyVal.str "a", PyVal.int 1)]) = true ∧
    isDictOrList (PyVal.dict [(PyVal.str "a", PyVal.int 1)]) = true ∧
    (tryExtractJsonFromText
        (PyVal.str (String.mk (serJ (PyVal.dict [(PyVal.str "a", PyVal.int 1)]))))
      = .ok (some (PyVal.dict [(PyVal.str "a", PyVal.int 1)])) ∧
      stage1 (pyStrip (serJ (PyVal.dict [(PyVal.str "a", PyVal.int 1)])))
      = some (PyVal.dict [(PyVal.str "a", PyVal.int 1)])) :=
  ⟨by decide, by decide,
    C8_serialize_roundtrip (PyVal.dict [(PyVal.str "a", PyVal.int 1)])
      (by decide) (by decide)⟩
